import Mathlib

/-!
# Recursive filter and count annotation over a nested dataset

A shallow embedding of `src/src/functions.js` and `src/src/functions_readable.js`
(`filterArray`, `countArray`) together with the properties of the specification
that concern them.

Modelling conventions.

* A JavaScript object is the list of its own enumerable entries in `Object.keys`
  order.  The keys of an object are pairwise distinct; theorems that depend on it
  assume it, for the Nodes concerned (`distinctKeys`) or at every depth (`wfTree`).
  Field names are ordinary identifiers (JavaScript enumerates canonical array
  indices such as `"0"` before all other keys, which an insertion ordered list
  does not express).
* `Object.keys(item).reduce((currentItem, key) => ... item[key] ..., init)` is a
  left fold over the entries `(key, item[key])`.
* A value is a primitive or an array of objects, as in the data model of the
  specification.  Numbers are integers of magnitude below `10^21`, which
  JavaScript prints in decimal (the exponent form of larger numbers is not
  expressed).
* Strings are Lean strings.  Only the test `indexOf(pattern) === -1` is observed,
  which is the same over code points and over UTF-16 code units of well formed
  strings.
* A thrown exception is a value of `Error` on the left of `Except`.
* `countArray` and `processArray` give the value that the source returns.  The
  one exception of `countArray`, thrown by the string conversion of its template
  literal, is carried by `countArrayE` and `processArrayE`, which return that
  value whenever they return (`countArrayE_eq`).
-/

namespace Cdp

/-! ## Data model -/

mutual
/-- A JavaScript value stored in a field: a primitive or an array of objects. -/
inductive Value where
  | str (s : String)
  | num (n : Int)
  | bool (b : Bool)
  | null
  | undefined
  | array (items : List Node)
/-- A plain object: its entries in `Object.keys` order. -/
inductive Node where
  | mk (fields : List (String × Value))
end

/-- The entries of an object under construction or inspection. -/
abbrev Fields := List (String × Value)

/-- Entries of an object. -/
def Node.fields : Node → Fields
  | .mk fs => fs

/-- Exceptions the program can raise. -/
inductive Error where
  /-- Raised by `throw new Error('No filtering key is defined')`. -/
  | noFilteringKey
  /-- Raised by `throw new Error("Argument " + argument + " is forbidden")`. -/
  | forbidden (argument : String)
  /-- A `TypeError` of the runtime: `subItem.name.indexOf` where `subItem.name`
  is `undefined` or `null`, or has no callable `indexOf`. -/
  | typeError
  deriving DecidableEq, Repr

/-- Test `Array.isArray(v)`. -/
def Value.isArray : Value → Bool
  | .array _ => true
  | _ => false

/-- Property read `o[k]`: the value stored under `k`, `undefined` when absent. -/
def getField : Fields → String → Value
  | [], _ => .undefined
  | (k', v) :: rest, k => if k' = k then v else getField rest k

/-- Property definition `o[k] = v` on a fresh copy: an existing key keeps its
position and takes the new value, a new key is added last. -/
def setField : Fields → String → Value → Fields
  | [], k, v => [(k, v)]
  | (k', v') :: rest, k, v =>
    if k' = k then (k', v) :: rest else (k', v') :: setField rest k v

/-- Object spread `{...target, ...source}`: the entries of `source` are
defined on `target` one after the other. -/
def spread (target source : Fields) : Fields :=
  source.foldl (fun o kv => setField o kv.1 kv.2) target

/-- JavaScript truthiness, as used by `item.name || ''`. -/
def truthy : Value → Bool
  | .str s => s.data ≠ []
  | .num n => n ≠ 0
  | .bool b => b
  | .null => false
  | .undefined => false
  | .array _ => true

/-- String conversion used by a template literal, when it returns.  A plain
object prints as `[object Object]` and an array joins its elements with commas.
The conversion throws on the arrays that `conversionThrows` describes. -/
def toStr : Value → String
  | .str s => s
  | .num n => toString n
  | .bool b => if b then "true" else "false"
  | .null => "null"
  | .undefined => "undefined"
  | .array items => ",".intercalate (items.map fun _ => "[object Object]")

/-- Search of `String.prototype.indexOf`: position of the first occurrence of
`pattern` at or after offset `k` of the original string, of which the second
argument is the remainder; `-1` when there is none. -/
def indexOfFrom (pattern : List Char) : List Char → Nat → Int
  | [], k => if pattern.isPrefixOf [] then (k : Int) else -1
  | c :: s, k => if pattern.isPrefixOf (c :: s) then (k : Int) else indexOfFrom pattern s (k + 1)

/-- Call `s.indexOf(pattern)` on strings. -/
def indexOf (s pattern : String) : Int :=
  indexOfFrom pattern.data s.data 0

/-- Array `filter` with a callback that may throw: elements are visited in
order and the first exception aborts the call. -/
def filterE {α : Type} (p : α → Except Error Bool) : List α → Except Error (List α)
  | [] => .ok []
  | x :: xs =>
    match p x with
    | .error e => .error e
    | .ok b =>
      match filterE p xs with
      | .error e => .error e
      | .ok rest => .ok (if b then x :: rest else rest)

/-! ## `filterArray` (functions.js, lines 51-81; functions_readable.js, lines 56-90) -/

/-- Expression `subItem.name.indexOf(pattern)`.  On a string name it is the string
search.  On an array name it is `Array.prototype.indexOf`, which finds no element
strictly equal to a string among objects.  Any other name has no `indexOf`. -/
def nameIndexOf (subItem : Node) (pattern : String) : Except Error Int :=
  match getField subItem.fields "name" with
  | .str s => .ok (indexOf s pattern)
  | .array _ => .ok (-1)
  | _ => .error .typeError

/-- Callback of the inner filter, lines 65-67:
`filters.filter((pattern) => subItem.name.indexOf(pattern) === -1).length === 0`. -/
def matchesAll (filters : List String) (subItem : Node) : Except Error Bool :=
  match filterE (fun pattern => (nameIndexOf subItem pattern).map (fun i => decide (i = -1))) filters with
  | .error e => .error e
  | .ok missing => .ok (missing.length == 0)

/-- Callback of the final clean, lines 78-79:
`Object.keys(item).filter((key) => Array.isArray(item[key]) && item[key].length > 0).length > 0`. -/
def keepItem (item : Node) : Bool :=
  decide ((item.fields.filter (fun kv =>
    match kv.2 with
    | .array items => decide (items.length > 0)
    | _ => false)).length > 0)

mutual
/-- The `array.map(...)` of lines 57-76: every item is rebuilt, in order. -/
def rebuildItems (filters : List String) (filteringKey : String) :
    List Node → Except Error (List Node)
  | [] => .ok []
  | item :: rest =>
    match rebuildItem filters filteringKey item with
    | .error e => .error e
    | .ok item' =>
      match rebuildItems filters filteringKey rest with
      | .error e => .error e
      | .ok rest' => .ok (item' :: rest')
/-- The `Object.keys(item).reduce(..., {})` of one item. -/
def rebuildItem (filters : List String) (filteringKey : String) : Node → Except Error Node
  | .mk fields =>
    match rebuildKeys filters filteringKey fields [] with
    | .error e => .error e
    | .ok currentItem => .ok (.mk currentItem)
/-- The reduce over the remaining entries, `currentItem` being the accumulator.
For an array under the filtering key the children are filtered by name; for any
other array the recursive call `filterArray(item[key], filters, filteringKey)` is
made, that is the rebuild of its items followed by the final clean. -/
def rebuildKeys (filters : List String) (filteringKey : String) :
    Fields → Fields → Except Error Fields
  | [], currentItem => .ok currentItem
  | (key, value) :: rest, currentItem =>
    match value with
    | .array items =>
      if key = filteringKey then
        match filterE (matchesAll filters) items with
        | .error e => .error e
        | .ok kept => rebuildKeys filters filteringKey rest (setField currentItem key (.array kept))
      else
        match rebuildItems filters filteringKey items with
        | .error e => .error e
        | .ok rebuilt =>
          rebuildKeys filters filteringKey rest
            (setField currentItem key (.array (rebuilt.filter keepItem)))
    | _ => rebuildKeys filters filteringKey rest (setField currentItem key value)
end

/-- Function `filterArray(array, filters, filteringKey)`.  The key is `none` when the
argument is `undefined` (also by default). -/
def filterArray (array : List Node) (filters : List String) (filteringKey : Option String) :
    Except Error (List Node) :=
  match filteringKey with
  | none => .error .noFilteringKey
  | some key =>
    match rebuildItems filters key array with
    | .error e => .error e
    | .ok rebuilt => .ok (rebuilt.filter keepItem)

/-! ## `countArray` -/

/-- Expression `item.name || ''`. -/
def nameOrEmpty (fields : Fields) : Value :=
  if truthy (getField fields "name") then getField fields "name" else .str ""

/-- Template literal of line 97: the current name, a blank, and the length of
the array between square brackets. -/
def suffixed (name : Value) (length : Nat) : Value :=
  .str (toStr name ++ " [" ++ toString length ++ "]")

mutual
/-- Function `countArray` of functions.js, lines 90-107, as the value it
returns; `countArrayE` adds the exception of the template literal. -/
def countArray : List Node → List Node
  | [] => []
  | item :: rest => countItem item :: countArray rest
/-- The reduce of one item, started from `{ name: item.name || '' }`. -/
def countItem : Node → Node
  | .mk fields => .mk (countKeys fields [("name", nameOrEmpty fields)])
/-- The reduce over the remaining entries.  An array entry gives
`{...currentItem, [key]: countArray(item[key]), name: ...}`, any other entry
`{[key]: item[key], ...currentItem}`. -/
def countKeys : Fields → Fields → Fields
  | [], currentItem => currentItem
  | (key, value) :: rest, currentItem =>
    match value with
    | .array items =>
      countKeys rest
        (setField (setField currentItem key (.array (countArray items))) "name"
          (suffixed (getField currentItem "name") items.length))
    | _ => countKeys rest (spread [(key, value)] currentItem)
end

mutual
/-- Function `countArray` of functions_readable.js, lines 99-116, as the value
it returns. -/
def countArrayReadable : List Node → List Node
  | [] => []
  | item :: rest => countItemReadable item :: countArrayReadable rest
/-- The reduce of one item, started from `{ name: item.name || '' }`. -/
def countItemReadable : Node → Node
  | .mk fields => .mk (countKeysReadable fields [("name", nameOrEmpty fields)])
/-- The reduce over the remaining entries.  An array entry gives
`{...currentItem, [key]: countArray(item[key]), name: ...}`, any other entry
`{...currentItem, [key]: item[key]}`. -/
def countKeysReadable : Fields → Fields → Fields
  | [], currentItem => currentItem
  | (key, value) :: rest, currentItem =>
    match value with
    | .array items =>
      countKeysReadable rest
        (setField (setField currentItem key (.array (countArrayReadable items))) "name"
          (suffixed (getField currentItem "name") items.length))
    | _ => countKeysReadable rest (setField currentItem key value)
end

/-! ## Well-formed input and notions of the specification -/

/-- Names of the fields of an object, in order (`Object.keys`). -/
def keysOf (fields : Fields) : List String :=
  fields.map Prod.fst

mutual
/-- The Bool `p` holds of every Node of the sequence and, recursively, of every
Node of the arrays stored under a key selected by `descend`. -/
def everyNode (descend : String → Bool) (p : Node → Bool) : List Node → Bool
  | [] => true
  | n :: ns => everyNodeIn descend p n && everyNode descend p ns
/-- Case of one Node. -/
def everyNodeIn (descend : String → Bool) (p : Node → Bool) : Node → Bool
  | .mk fields => p (.mk fields) && everyField descend p fields
/-- Case of the entries of one Node. -/
def everyField (descend : String → Bool) (p : Node → Bool) : Fields → Bool
  | [] => true
  | (key, value) :: rest =>
    (match value with
      | .array items => !descend key || everyNode descend p items
      | _ => true) && everyField descend p rest
end

/-- The keys of a Node are pairwise distinct. -/
def distinctKeys (n : Node) : Bool :=
  decide (keysOf n.fields).Nodup

/-- Well-formed tree: at every depth the keys of each object are pairwise
distinct, as they are in any JavaScript object. -/
def wfTree (T : List Node) : Bool :=
  everyNode (fun _ => true) distinctKeys T

/-- The Node carries a string under `name`. -/
def hasStringName (n : Node) : Bool :=
  match getField n.fields "name" with
  | .str _ => true
  | _ => false

/-- Every child of an array stored under `K` in this Node carries a string name. -/
def namedChildren (K : String) (n : Node) : Bool :=
  n.fields.all (fun kv =>
    match kv.2 with
    | .array items => decide (kv.1 ≠ K) || items.all hasStringName
    | _ => true)

/-- Every child of every array named `K`, at any depth, carries a string name. -/
def namedTree (K : String) (T : List Node) : Bool :=
  everyNode (fun _ => true) (namedChildren K) T

/-- The name of the Node is a string that contains `pattern` as a substring
(case-sensitive). -/
def nameContains (pattern : String) (n : Node) : Bool :=
  match getField n.fields "name" with
  | .str s => decide (pattern.data <:+: s.data)
  | _ => false

/-- The name of the Node contains every pattern of the list. -/
def nameContainsAll (patterns : List String) (n : Node) : Bool :=
  patterns.all (fun p => nameContains p n)

/-- The child sequence stored under `K`, empty when `K` holds no array. -/
def children (K : String) (n : Node) : List Node :=
  match getField n.fields K with
  | .array items => items
  | _ => []

/-- The Node with the array stored under `K` replaced by the array `items`;
other fields and the order of fields are unchanged. -/
def withField (n : Node) (K : String) (items : List Node) : Node :=
  .mk (n.fields.map (fun kv =>
    if kv.1 = K ∧ kv.2.isArray = true then (kv.1, .array items) else kv))

/-- The Node has at least one child under `K` whose name contains every pattern. -/
def hasMatch (patterns : List String) (K : String) (n : Node) : Bool :=
  (children K n).any (nameContainsAll patterns)

/-- The Node with the array under `K` reduced to the children whose name contains
every pattern, in their original order. -/
def keepMatches (patterns : List String) (K : String) (n : Node) : Node :=
  withField n K ((children K n).filter (nameContainsAll patterns))

/-- Every array-valued field of the Node is named `K`. -/
def onlyArrayField (K : String) (n : Node) : Bool :=
  n.fields.all (fun kv => !kv.2.isArray || decide (kv.1 = K))

/-- Array `map` with a callback that may throw: elements are visited in order
and the first exception aborts the call. -/
def mapE {α β : Type} (f : α → Except Error β) : List α → Except Error (List β)
  | [] => .ok []
  | x :: xs =>
    match f x with
    | .error e => .error e
    | .ok y =>
      match mapE f xs with
      | .error e => .error e
      | .ok ys => .ok (y :: ys)

/-- Rebuilt entry, in the words of the specification: an array under the target
field is replaced by its children that pass the patterns, any other array by
the result of the same filter applied to it, and a scalar is copied. -/
def rebuiltField (patterns : List String) (K : String) (kv : String × Value) :
    Except Error (String × Value) :=
  match kv.2 with
  | .array items =>
    if kv.1 = K then
      (filterE (matchesAll patterns) items).map (fun kept => (kv.1, .array kept))
    else
      (filterArray items patterns (some K)).map (fun sub => (kv.1, .array sub))
  | _ => .ok kv

/-- Rebuilt form of a Node: its entries rebuilt one by one, in order. -/
def rebuiltForm (patterns : List String) (K : String) (n : Node) : Except Error Node :=
  (mapE (rebuiltField patterns K) n.fields).map Node.mk

/-- The Node has at least one array-valued field with at least one element. -/
def hasNonEmptyArray (n : Node) : Bool :=
  n.fields.any (fun kv =>
    match kv.2 with
    | .array (_ :: _) => true
    | _ => false)

/-! ## Sample data -/

/-- The person of the example of the specification:
`{name: 'Ann', animals: [{name: 'Duck'}, {name: 'Cat'}]}`. -/
def ann : Node :=
  .mk [("name", .str "Ann"),
    ("animals", .array [.mk [("name", .str "Duck")], .mk [("name", .str "Cat")]])]

/-- The first person of `data.js` (lines 4-18): the array comes before the name. -/
def winifred : Node :=
  .mk [("animals", .array [.mk [("name", .str "Anoa")], .mk [("name", .str "Duck")],
      .mk [("name", .str "Narwhal")], .mk [("name", .str "Badger")],
      .mk [("name", .str "Cobra")], .mk [("name", .str "Crow")]]),
    ("name", .str "Winifred Graham")]

/-- A region in the shape of `data.js`, with two people. -/
def region : Node :=
  .mk [("name", .str "Dillauti"), ("people", .array [winifred, ann])]

/-- A region none of whose animals is a cat. -/
def otherRegion : Node :=
  .mk [("name", .str "Tohabdal"),
    ("people", .array [.mk [("name", .str "Effie Houghton"),
      ("animals", .array [.mk [("name", .str "Zebra")], .mk [("name", .str "Ring-tailed Lemur")]])]])]

/-- A person whose only animal is a cat. -/
def bob : Node :=
  .mk [("name", .str "Bob"), ("animals", .array [.mk [("name", .str "Cat")]])]

/-- A person without animals. -/
def eve : Node :=
  .mk [("name", .str "Eve"), ("animals", .array [])]

/-- A Node whose target array holds a child that has a target array of its own. -/
def kennel : Node :=
  .mk [("name", .str "Kennel"),
    ("animals", .array [.mk [("name", .str "Duck"),
      ("animals", .array [.mk [("name", .str "Cat")]])]])]

/-- A Node whose only animal has no name. -/
def nameless : Node :=
  .mk [("name", .str "Zoe"), ("animals", .array [.mk []])]

/-! ## Relations between the input and the output of the filter -/

mutual
/-- `PrunedTree R T`: the sequence `R` is obtained from `T` by deleting Nodes, at
this level and inside the arrays of the Nodes that stay; nothing is added,
duplicated or reordered. -/
inductive PrunedTree : List Node → List Node → Prop where
  | nil : PrunedTree [] []
  | drop {R T : List Node} (n : Node) : PrunedTree R T → PrunedTree R (n :: T)
  | keep {m n : Node} {R T : List Node} :
    PrunedNode m n → PrunedTree R T → PrunedTree (m :: R) (n :: T)
/-- `PrunedNode m n`: the Node `m` has the field names of `n` in the same order,
the same scalar values, and arrays pruned from those of `n`. -/
inductive PrunedNode : Node → Node → Prop where
  | mk {fs gs : Fields} : PrunedFields fs gs → PrunedNode (.mk fs) (.mk gs)
/-- Entry by entry: a scalar is unchanged, an array is pruned. -/
inductive PrunedFields : Fields → Fields → Prop where
  | nil : PrunedFields [] []
  | scalar {fs gs : Fields} (k : String) (v : Value) :
    v.isArray = false → PrunedFields fs gs → PrunedFields ((k, v) :: fs) ((k, v) :: gs)
  | array {fs gs : Fields} (k : String) {ys xs : List Node} :
    PrunedTree ys xs → PrunedFields fs gs →
    PrunedFields ((k, .array ys) :: fs) ((k, .array xs) :: gs)
end

/-- Every Node visited by the filter for the target field `K` (the Nodes of the
sequence and, recursively, the Nodes of the arrays stored under a key other than
`K`) has at least one array-valued field with at least one element. -/
def fullTree (K : String) (T : List Node) : Bool :=
  everyNode (fun k => decide (k ≠ K)) hasNonEmptyArray T

/-- Every array stored under `K` in this Node holds only children whose name
contains every pattern. -/
def targetChildrenMatch (patterns : List String) (K : String) (n : Node) : Bool :=
  n.fields.all (fun kv =>
    match kv.2 with
    | .array items => decide (kv.1 ≠ K) || items.all (nameContainsAll patterns)
    | _ => true)

/-! ## Notions used for the count annotation -/

/-- The Node found by following a path: an index in the sequence, then
alternately the name of an array-valued field and an index in that array. -/
def nodeAt : List Node → Nat → List (String × Nat) → Option Node
  | T, i, [] => T[i]?
  | T, i, (k, j) :: path =>
    match T[i]? with
    | some n =>
      match getField n.fields k with
      | .array items => nodeAt items j path
      | _ => none
    | none => none

/-- The segments `" [N]"` of a Node: one per array-valued field, in field order,
`N` being the length of the array. -/
def countSegments (fields : Fields) : List String :=
  fields.filterMap (fun kv =>
    match kv.2 with
    | .array items => some (" [" ++ toString items.length ++ "]")
    | _ => none)

/-- The input name (the empty string when it is absent or falsy) followed by
the segments of the Node; without any segment the name is left as it is. -/
def annotatedName (n : Node) : Value :=
  match countSegments n.fields with
  | [] => nameOrEmpty n.fields
  | segments => .str (toStr (nameOrEmpty n.fields) ++ String.join segments)

/-- Names of the fields that hold a scalar, in order. -/
def scalarKeys (fields : Fields) : List String :=
  keysOf (fields.filter (fun kv => !kv.2.isArray))

/-- Names of the fields that hold an array, in order. -/
def arrayKeys (fields : Fields) : List String :=
  keysOf (fields.filter (fun kv => kv.2.isArray))

/-- The accumulator of the reduce of `countArray` is an object that has a `name`. -/
def IsAcc (cur : Fields) : Prop :=
  (keysOf cur).Nodup ∧ "name" ∈ keysOf cur

/-! ## `preprocessArguments` and `processArray` -/

/-- The object `{ filters, count }` returned by `preprocessArguments`. -/
structure PreprocessedArguments where
  /-- Patterns to search, in order. -/
  filters : List String
  /-- Whether the items are to be counted. -/
  count : Bool
  deriving DecidableEq, Repr

/-- Constant `FILTER_ARGUMENT` of `preprocessArguments`. -/
def FILTER_ARGUMENT : String := "--filter="

/-- Constant `COUNT_ARGUMENT` of `preprocessArguments`. -/
def COUNT_ARGUMENT : String := "--count"

/-- Array `reduce` with a callback that may throw: the elements are visited from
left to right and the first exception aborts the call. -/
def reduceE {α β : Type} (f : β → α → Except Error β) : List α → β → Except Error β
  | [], acc => .ok acc
  | x :: xs, acc =>
    match f acc x with
    | .error e => .error e
    | .ok acc' => reduceE f xs acc'

/-- Callback of the reduce of `preprocessArguments` (functions.js, lines 18-35).
When the first branch is taken the argument starts with the nine characters of
`FILTER_ARGUMENT`, so that `argument.slice(FILTER_ARGUMENT.length)` drops exactly
this prefix, and `argument.length > FILTER_ARGUMENT.length` says that something
follows it. -/
def preprocessStep (preprocessedArguments : PreprocessedArguments) (argument : String) :
    Except Error PreprocessedArguments :=
  if indexOf argument FILTER_ARGUMENT = 0 ∧ argument.length > FILTER_ARGUMENT.length then
    .ok ⟨preprocessedArguments.filters ++ [String.mk (argument.data.drop FILTER_ARGUMENT.length)],
      preprocessedArguments.count⟩
  else if argument = COUNT_ARGUMENT then
    .ok ⟨preprocessedArguments.filters, true⟩
  else
    .error (.forbidden argument)

/-- Function `preprocessArguments(args)` (functions.js, lines 15-39;
functions_readable.js, lines 22-44). -/
def preprocessArguments (args : List String) : Except Error PreprocessedArguments :=
  reduceE preprocessStep args ⟨[], false⟩

/-- Function `processArray(array, args, filteringKey)` of functions.js, lines
119-127.  The key is `none` when the argument is `undefined`.  The count step is
the value of `countArray`; `processArrayE` adds its exception. -/
def processArray (array : List Node) (args : List String) (filteringKey : Option String) :
    Except Error (List Node) :=
  match preprocessArguments args with
  | .error e => .error e
  | .ok preprocessedArguments =>
    match (if preprocessedArguments.filters.length > 0
        then filterArray array preprocessedArguments.filters filteringKey
        else .ok array) with
    | .error e => .error e
    | .ok filteredArray =>
      .ok (if preprocessedArguments.count then countArray filteredArray else filteredArray)

/-- Function `processArray(array, arguments, filteringKey)` of
functions_readable.js, lines 130-138: the same text, calling the `countArray`
of that file. -/
def processArrayReadable (array : List Node) (args : List String)
    (filteringKey : Option String) : Except Error (List Node) :=
  match preprocessArguments args with
  | .error e => .error e
  | .ok preprocessedArguments =>
    match (if preprocessedArguments.filters.length > 0
        then filterArray array preprocessedArguments.filters filteringKey
        else .ok array) with
    | .error e => .error e
    | .ok filteredArray =>
      .ok (if preprocessedArguments.count then countArrayReadable filteredArray
        else filteredArray)

/-! ## Tokens, in the words of the specification -/

/-- The token has the form `--filter=<pattern>` with a non-empty pattern: it
starts with `--filter=` and is strictly longer. -/
def isFilterToken (t : String) : Bool :=
  decide ("--filter=".data <+: t.data) && decide ("--filter=".length < t.length)

/-- The token is exactly `--count`. -/
def isCountToken (t : String) : Bool :=
  decide (t = "--count")

/-- The token is one of the two recognized forms. -/
def validToken (t : String) : Bool :=
  isFilterToken t || isCountToken t

/-- The remainder of a token after the nine characters of `--filter=`. -/
def patternOf (t : String) : String :=
  String.mk (t.data.drop 9)

/-- The patterns of the filter tokens of `args`, in order of appearance. -/
def patternsOf (args : List String) : List String :=
  (args.filter isFilterToken).map patternOf

/-- No child of any array named `K`, at any depth, has a name that contains
every pattern. -/
def noMatchTree (patterns : List String) (K : String) (T : List Node) : Bool :=
  everyNode (fun _ => true) (fun n => n.fields.all (fun kv =>
    match kv.2 with
    | .array items => decide (kv.1 ≠ K) || items.all (fun c => !nameContainsAll patterns c)
    | _ => true)) T

/-! ## The exception of the template literal -/

/-- Whether the string conversion of a template literal throws on the value.
Converting an array joins the conversions of its elements; a plain object that
has an own field `toString` has no callable `toString`, and the inherited
`valueOf` returns the object itself, so that its conversion throws a
`TypeError`.  Primitives and all other arrays convert. -/
def conversionThrows : Value → Bool
  | .array items => items.any (fun n => decide ("toString" ∈ keysOf n.fields))
  | _ => false

/-- Template literal of line 97 with its exception. -/
def suffixedE (name : Value) (length : Nat) : Except Error Value :=
  if conversionThrows name = true then .error .typeError else .ok (suffixed name length)

mutual
/-- Function `countArray` of functions.js, lines 90-107, with the exception of
the template literal: the items are rebuilt in order and the first exception
aborts the call. -/
def countArrayE : List Node → Except Error (List Node)
  | [] => .ok []
  | item :: rest =>
    match countItemE item with
    | .error e => .error e
    | .ok item' =>
      match countArrayE rest with
      | .error e => .error e
      | .ok rest' => .ok (item' :: rest')
/-- The reduce of one item, started from `{ name: item.name || '' }`. -/
def countItemE : Node → Except Error Node
  | .mk fields =>
    match countKeysE fields [("name", nameOrEmpty fields)] with
    | .error e => .error e
    | .ok currentItem => .ok (.mk currentItem)
/-- The reduce over the remaining entries.  In the object literal of an array
entry the recursive call `countArray(item[key])` is evaluated before the
template literal of `name`. -/
def countKeysE : Fields → Fields → Except Error Fields
  | [], currentItem => .ok currentItem
  | (key, value) :: rest, currentItem =>
    match value with
    | .array items =>
      match countArrayE items with
      | .error e => .error e
      | .ok counted =>
        match suffixedE (getField currentItem "name") items.length with
        | .error e => .error e
        | .ok name =>
          countKeysE rest (setField (setField currentItem key (.array counted)) "name" name)
    | _ => countKeysE rest (spread [(key, value)] currentItem)
end

/-- Function `processArray(array, args, filteringKey)` of functions.js, lines
119-127, with the exception of `countArray`. -/
def processArrayE (array : List Node) (args : List String) (filteringKey : Option String) :
    Except Error (List Node) :=
  match preprocessArguments args with
  | .error e => .error e
  | .ok preprocessedArguments =>
    match (if preprocessedArguments.filters.length > 0
        then filterArray array preprocessedArguments.filters filteringKey
        else .ok array) with
    | .error e => .error e
    | .ok filteredArray =>
      if preprocessedArguments.count then countArrayE filteredArray else .ok filteredArray

/-- The template literal of the Node does not throw: its name is not an array
that holds a Node with a field named `toString`. -/
def nameConverts (n : Node) : Bool :=
  !conversionThrows (getField n.fields "name")

/-- No template literal of `countArray` throws on the tree: at every depth the
name of each Node converts. -/
def templateSafe (T : List Node) : Bool :=
  everyNode (fun _ => true) nameConverts T

/-- A Node whose name is an array that holds a Node with a field `toString`. -/
def unprintable : Node :=
  .mk [("name", .array [.mk [("toString", .str "a")]])]

/-! # Theorems -/

/-! ## Objects as entry lists -/

theorem getField_mem_of_array {fs : Fields} {k : String} {xs : List Node}
    (h : getField fs k = .array xs) : (k, Value.array xs) ∈ fs := by
  induction fs with
  | nil => simp [getField] at h
  | cons kv rest ih =>
    obtain ⟨k', v⟩ := kv
    by_cases hk : k' = k
    · subst hk
      simp only [getField, if_true] at h
      subst h
      exact List.mem_cons_self _ _
    · simp only [getField, if_neg hk] at h
      exact List.mem_cons_of_mem _ (ih h)

theorem getField_of_mem {fs : Fields} {k : String} {v : Value}
    (hnd : (keysOf fs).Nodup) (h : (k, v) ∈ fs) : getField fs k = v := by
  induction fs with
  | nil => cases h
  | cons kv rest ih =>
    obtain ⟨k', v'⟩ := kv
    simp only [keysOf, List.map_cons, List.nodup_cons] at hnd
    rcases List.mem_cons.1 h with h | h
    · cases h
      simp [getField]
    · have hne : k' ≠ k := by
        intro hk
        subst hk
        exact hnd.1 (List.mem_map.2 ⟨(k', v), h, rfl⟩)
      simp only [getField, if_neg hne]
      exact ih hnd.2 h

theorem getField_of_not_mem {fs : Fields} {k : String} (h : k ∉ keysOf fs) :
    getField fs k = .undefined := by
  induction fs with
  | nil => rfl
  | cons kv rest ih =>
    obtain ⟨k', v'⟩ := kv
    simp only [keysOf, List.map_cons, List.mem_cons, not_or] at h
    have hne : k' ≠ k := fun e => h.1 e.symm
    simp only [getField, if_neg hne]
    exact ih h.2

theorem setField_of_not_mem {fs : Fields} {k : String} (v : Value)
    (h : k ∉ keysOf fs) : setField fs k v = fs ++ [(k, v)] := by
  induction fs with
  | nil => rfl
  | cons kv rest ih =>
    obtain ⟨k', v'⟩ := kv
    simp only [keysOf, List.map_cons, List.mem_cons, not_or] at h
    have hne : k' ≠ k := fun e => h.1 e.symm
    simp only [setField, if_neg hne, List.cons_append]
    rw [ih h.2]

theorem keysOf_setField (fs : Fields) (k : String) (v : Value) :
    keysOf (setField fs k v) = if k ∈ keysOf fs then keysOf fs else keysOf fs ++ [k] := by
  induction fs with
  | nil => simp [setField, keysOf]
  | cons kv rest ih =>
    obtain ⟨k', v'⟩ := kv
    by_cases hk : k' = k
    · subst hk
      simp [setField, keysOf]
    · have hk2 : ¬ k = k' := fun e => hk e.symm
      simp only [keysOf] at ih
      simp only [setField, if_neg hk, keysOf, List.map_cons, List.mem_cons, hk2, false_or, ih]
      split <;> simp

theorem getField_setField_same (fs : Fields) (k : String) (v : Value) :
    getField (setField fs k v) k = v := by
  induction fs with
  | nil => simp [setField, getField]
  | cons kv rest ih =>
    obtain ⟨k', v'⟩ := kv
    by_cases hk : k' = k
    · simp [setField, getField, hk]
    · simp [setField, getField, hk, ih]

theorem getField_setField_ne (fs : Fields) {k k' : String} (v : Value) (h : k ≠ k') :
    getField (setField fs k v) k' = getField fs k' := by
  induction fs with
  | nil => simp [setField, getField, h]
  | cons kv rest ih =>
    obtain ⟨k₀, v₀⟩ := kv
    by_cases hk : k₀ = k
    · subst hk
      simp [setField, getField, h]
    · by_cases hk' : k₀ = k'
      · subst hk'
        simp [setField, getField, hk]
      · simp [setField, getField, hk, hk', ih]

/-! ## Callbacks that may throw -/

theorem filterE_pure {α : Type} {p : α → Except Error Bool} {q : α → Bool} (xs : List α)
    (h : ∀ x ∈ xs, p x = .ok (q x)) : filterE p xs = .ok (xs.filter q) := by
  induction xs with
  | nil => rfl
  | cons x rest ih =>
    have hx := h x (List.mem_cons_self _ _)
    have hr := ih (fun y hy => h y (List.mem_cons_of_mem _ hy))
    simp only [filterE, hx, hr, List.filter_cons]

theorem mapE_pure {α β : Type} {f : α → Except Error β} {g : α → β} (xs : List α)
    (h : ∀ x ∈ xs, f x = .ok (g x)) : mapE f xs = .ok (xs.map g) := by
  induction xs with
  | nil => rfl
  | cons x rest ih =>
    have hx := h x (List.mem_cons_self _ _)
    have hr := ih (fun y hy => h y (List.mem_cons_of_mem _ hy))
    simp only [mapE, hx, hr, List.map_cons]

theorem mapE_congr {α β : Type} {f g : α → Except Error β} (xs : List α)
    (h : ∀ x ∈ xs, f x = g x) : mapE f xs = mapE g xs := by
  induction xs with
  | nil => rfl
  | cons x rest ih =>
    have hx := h x (List.mem_cons_self _ _)
    have hr := ih (fun y hy => h y (List.mem_cons_of_mem _ hy))
    simp only [mapE, hx, hr]

theorem mapE_ok_iff {α β : Type} {f : α → Except Error β} {xs : List α} {ys : List β} :
    mapE f xs = .ok ys ↔ List.Forall₂ (fun x y => f x = .ok y) xs ys := by
  induction xs generalizing ys with
  | nil =>
    constructor
    · intro h
      simp only [mapE, Except.ok.injEq] at h
      subst h
      exact List.Forall₂.nil
    · intro h
      cases h
      rfl
  | cons x rest ih =>
    constructor
    · intro h
      simp only [mapE] at h
      cases hx : f x with
      | error e => simp [hx] at h
      | ok y =>
        cases hr : mapE f rest with
        | error e => simp [hx, hr] at h
        | ok ys' =>
          simp only [hx, hr, Except.ok.injEq] at h
          subst h
          exact List.Forall₂.cons hx (ih.1 hr)
    · intro h
      cases h with
      | cons hx hr =>
        simp only [mapE, hx, ih.2 hr]

/-! ## String search -/

theorem indexOfFrom_eq_neg_one (p s : List Char) (k : Nat) :
    indexOfFrom p s k = -1 ↔ ¬ p <:+: s := by
  induction s generalizing k with
  | nil =>
    simp only [indexOfFrom, List.infix_nil]
    cases p with
    | nil => simp [List.isPrefixOf]
    | cons c p => simp [List.isPrefixOf]
  | cons c s ih =>
    simp only [indexOfFrom]
    by_cases hp : p.isPrefixOf (c :: s) = true
    · simp only [hp, if_true]
      have hpre : p <+: c :: s := List.isPrefixOf_iff_prefix.1 hp
      constructor
      · intro h
        omega
      · intro h
        exact absurd hpre.isInfix h
    · simp only [hp, Bool.false_eq_true, if_false]
      rw [ih]
      have hpre : ¬ p <+: c :: s := fun h => hp (List.isPrefixOf_iff_prefix.2 h)
      rw [List.infix_cons_iff]
      tauto

theorem indexOf_eq_neg_one (s p : String) : indexOf s p = -1 ↔ ¬ p.data <:+: s.data :=
  indexOfFrom_eq_neg_one _ _ _

/-! ## The matching test -/

theorem matchesAll_of_name {P : List String} {c : Node} {s : String}
    (h : getField c.fields "name" = .str s) : matchesAll P c = .ok (nameContainsAll P c) := by
  have hp : ∀ p ∈ P, (nameIndexOf c p).map (fun i => decide (i = -1))
      = .ok (decide (indexOf s p = -1)) := by
    intro p _
    simp only [nameIndexOf, h]
    rfl
  simp only [matchesAll, filterE_pure P hp]
  congr 1
  simp only [nameContainsAll, nameContains, h]
  rw [Bool.eq_iff_iff]
  simp only [beq_iff_eq, List.length_eq_zero, List.filter_eq_nil_iff, decide_eq_true_eq,
    List.all_eq_true, indexOf_eq_neg_one, not_not]

theorem matchesAll_of_hasStringName {P : List String} {c : Node}
    (h : hasStringName c = true) : matchesAll P c = .ok (nameContainsAll P c) := by
  unfold hasStringName at h
  split at h
  · next s hs => exact matchesAll_of_name hs
  · cases h

/-- Whenever the matching test returns, its result is that the name contains
every pattern. -/
theorem matchesAll_ok {P : List String} {c : Node} {b : Bool}
    (h : matchesAll P c = .ok b) : b = nameContainsAll P c := by
  cases hname : getField c.fields "name" with
  | str s =>
    rw [matchesAll_of_name hname] at h
    cases h
    rfl
  | array items =>
    have hp : ∀ p ∈ P, (nameIndexOf c p).map (fun i => decide (i = -1)) = .ok true := by
      intro p _
      simp only [nameIndexOf, hname]
      rfl
    simp only [matchesAll, filterE_pure P hp, Except.ok.injEq] at h
    subst h
    cases P with
    | nil => rfl
    | cons p P => simp [nameContainsAll, nameContains, hname]
  | _ =>
    cases P with
    | nil =>
      cases h
      rfl
    | cons p P =>
      simp [matchesAll, filterE, nameIndexOf, hname, Except.map] at h

theorem matchesAll_nil (c : Node) : matchesAll [] c = .ok true := rfl

/-! ## The reduce of `filterArray` is a map over the entries -/

theorem rebuildItems_eq_mapE (P : List String) (K : String) (T : List Node) :
    rebuildItems P K T = mapE (rebuildItem P K) T := by
  induction T with
  | nil => simp [rebuildItems, mapE]
  | cons n rest ih =>
    simp only [rebuildItems, mapE, ih]
    cases rebuildItem P K n with
    | error e => rfl
    | ok y => cases mapE (rebuildItem P K) rest <;> rfl

theorem rebuiltField_key {P : List String} {K : String} {kv kv' : String × Value}
    (h : rebuiltField P K kv = .ok kv') : kv'.1 = kv.1 := by
  obtain ⟨k, v⟩ := kv
  cases v with
  | array items =>
    simp only [rebuiltField] at h
    split at h
    · cases hf : filterE (matchesAll P) items with
      | error e => simp [hf, Except.map] at h
      | ok kept =>
        simp only [hf, Except.map, Except.ok.injEq] at h
        subst h
        rfl
    · cases hf : filterArray items P (some K) with
      | error e => simp [hf, Except.map] at h
      | ok kept =>
        simp only [hf, Except.map, Except.ok.injEq] at h
        subst h
        rfl
  | _ =>
    simp only [rebuiltField, Except.ok.injEq] at h
    subst h
    rfl

theorem rebuildKeys_cons (P : List String) (K : String) (kv : String × Value)
    (rest cur : Fields) :
    rebuildKeys P K (kv :: rest) cur =
      match rebuiltField P K kv with
      | .error e => .error e
      | .ok kv' => rebuildKeys P K rest (setField cur kv'.1 kv'.2) := by
  obtain ⟨k, v⟩ := kv
  cases v with
  | array items =>
    simp only [rebuildKeys, rebuiltField, filterArray]
    split
    · cases filterE (matchesAll P) items <;> rfl
    · cases rebuildItems P K items <;> rfl
  | _ => simp only [rebuildKeys, rebuiltField]

theorem rebuildKeys_eq_mapE (P : List String) (K : String) (fs cur : Fields)
    (hnd : (keysOf fs).Nodup) (hdis : ∀ k ∈ keysOf fs, k ∉ keysOf cur) :
    rebuildKeys P K fs cur = (mapE (rebuiltField P K) fs).map (fun out => cur ++ out) := by
  induction fs generalizing cur with
  | nil => simp [rebuildKeys, mapE, Except.map]
  | cons kv rest ih =>
    rw [rebuildKeys_cons]
    simp only [keysOf, List.map_cons, List.nodup_cons] at hnd
    simp only [mapE]
    cases hkv : rebuiltField P K kv with
    | error e => rfl
    | ok kv' =>
      have hk : kv'.1 = kv.1 := rebuiltField_key hkv
      have hnot : kv'.1 ∉ keysOf cur := by
        rw [hk]
        exact hdis _ (List.mem_cons_self _ _)
      simp only []
      rw [setField_of_not_mem _ hnot, ih _ hnd.2]
      · cases mapE (rebuiltField P K) rest with
        | error e => rfl
        | ok out => simp [Except.map]
      · intro k hkmem
        simp only [keysOf, List.map_append, List.map_cons, List.map_nil, List.mem_append,
          List.mem_singleton, not_or]
        refine ⟨hdis k (List.mem_cons_of_mem _ hkmem), ?_⟩
        intro e
        rw [e, hk] at hkmem
        exact hnd.1 hkmem

theorem rebuildItem_eq_rebuiltForm (P : List String) (K : String) (n : Node)
    (hnd : distinctKeys n = true) : rebuildItem P K n = rebuiltForm P K n := by
  obtain ⟨fs⟩ := n
  simp only [distinctKeys, Node.fields, decide_eq_true_eq] at hnd
  simp only [rebuildItem, rebuiltForm, Node.fields]
  rw [rebuildKeys_eq_mapE P K fs [] hnd (fun k _ => by simp [keysOf])]
  cases mapE (rebuiltField P K) fs <;> simp [Except.map]

theorem keepItem_eq_hasNonEmptyArray (n : Node) : keepItem n = hasNonEmptyArray n := by
  obtain ⟨fs⟩ := n
  simp only [keepItem, hasNonEmptyArray, Node.fields]
  rw [Bool.eq_iff_iff]
  simp only [gt_iff_lt, List.length_pos, ne_eq, List.filter_eq_nil_iff, not_forall,
    decide_eq_true_eq, List.any_eq_true]
  constructor
  · rintro ⟨kv, hmem, h⟩
    refine ⟨kv, hmem, ?_⟩
    obtain ⟨k, v⟩ := kv
    cases v with
    | array items =>
      cases items with
      | nil => simp at h
      | cons x xs => rfl
    | _ => simp at h
  · rintro ⟨kv, hmem, h⟩
    refine ⟨kv, hmem, ?_⟩
    obtain ⟨k, v⟩ := kv
    cases v with
    | array items =>
      cases items with
      | nil => simp at h
      | cons x xs => simp
    | _ => simp at h

/-! ## Well-formedness, one level at a time -/

theorem everyField_iff (d : String → Bool) (p : Node → Bool) (fs : Fields) :
    everyField d p fs = true ↔
      ∀ k xs, (k, Value.array xs) ∈ fs → d k = true → everyNode d p xs = true := by
  induction fs with
  | nil => simp [everyField]
  | cons kv rest ih =>
    obtain ⟨k, v⟩ := kv
    have hsplit : everyField d p ((k, v) :: rest) =
        ((match v with
          | .array items => !d k || everyNode d p items
          | _ => true) && everyField d p rest) := by
      cases v <;> simp [everyField]
    rw [hsplit, Bool.and_eq_true, ih]
    constructor
    · rintro ⟨h1, h2⟩ k' xs hmem hd
      rcases List.mem_cons.1 hmem with hmem | hmem
      · cases hmem
        simpa [hd] using h1
      · exact h2 k' xs hmem hd
    · intro h
      refine ⟨?_, fun k' xs hmem hd => h k' xs (List.mem_cons_of_mem _ hmem) hd⟩
      cases v with
      | array items =>
        cases hd : d k with
        | false => simp
        | true => simpa using h k items (List.mem_cons_self _ _) hd
      | _ => rfl

theorem everyNode_iff (d : String → Bool) (p : Node → Bool) (T : List Node) :
    everyNode d p T = true ↔
      ∀ n ∈ T, p n = true ∧
        ∀ k xs, (k, Value.array xs) ∈ n.fields → d k = true → everyNode d p xs = true := by
  induction T with
  | nil => simp [everyNode]
  | cons n rest ih =>
    obtain ⟨fs⟩ := n
    simp only [everyNode, everyNodeIn, Bool.and_eq_true, ih, List.mem_cons, forall_eq_or_imp,
      everyField_iff, Node.fields]

theorem wfTree_iff (T : List Node) :
    wfTree T = true ↔
      ∀ n ∈ T, (keysOf n.fields).Nodup ∧
        ∀ k xs, (k, Value.array xs) ∈ n.fields → wfTree xs = true := by
  unfold wfTree
  rw [everyNode_iff]
  simp [distinctKeys]

theorem wfTree_distinct {T : List Node} (h : wfTree T = true) {n : Node} (hn : n ∈ T) :
    distinctKeys n = true := by
  simpa [distinctKeys] using ((wfTree_iff T).1 h n hn).1

theorem wfTree_sub {T : List Node} (h : wfTree T = true) {n : Node} (hn : n ∈ T)
    {k : String} {xs : List Node} (hk : (k, Value.array xs) ∈ n.fields) : wfTree xs = true :=
  ((wfTree_iff T).1 h n hn).2 k xs hk

theorem wfTree_append {A B : List Node} :
    wfTree (A ++ B) = true ↔ wfTree A = true ∧ wfTree B = true := by
  rw [wfTree_iff (A ++ B), wfTree_iff A, wfTree_iff B]
  constructor
  · intro h
    exact ⟨fun n hn => h n (List.mem_append_left _ hn), fun n hn => h n (List.mem_append_right _ hn)⟩
  · rintro ⟨h1, h2⟩ n hn
    rcases List.mem_append.1 hn with hn | hn
    · exact h1 n hn
    · exact h2 n hn

theorem wfTree_cons {n : Node} {T : List Node} :
    wfTree (n :: T) = true ↔ wfTree [n] = true ∧ wfTree T = true :=
  @wfTree_append [n] T

/-! ## Induction over the arrays of a tree -/

mutual
theorem tree_induction_aux {motive : List Node → Prop}
    (step : ∀ T, (∀ n ∈ T, ∀ k xs, (k, Value.array xs) ∈ n.fields → motive xs) → motive T) :
    ∀ (T : List Node) (n : Node), n ∈ T →
      ∀ k xs, (k, Value.array xs) ∈ n.fields → motive xs
  | [], _, h => by cases h
  | m :: rest, n, h => by
    rcases List.mem_cons.1 h with h | h
    · subst h
      exact node_induction_aux step n
    · exact tree_induction_aux step rest n h
theorem node_induction_aux {motive : List Node → Prop}
    (step : ∀ T, (∀ n ∈ T, ∀ k xs, (k, Value.array xs) ∈ n.fields → motive xs) → motive T) :
    ∀ (n : Node) (k : String) (xs : List Node), (k, Value.array xs) ∈ n.fields → motive xs
  | .mk fs => fields_induction_aux step fs
theorem fields_induction_aux {motive : List Node → Prop}
    (step : ∀ T, (∀ n ∈ T, ∀ k xs, (k, Value.array xs) ∈ n.fields → motive xs) → motive T) :
    ∀ (fs : Fields) (k : String) (xs : List Node), (k, Value.array xs) ∈ fs → motive xs
  | [], _, _, h => by cases h
  | (k', v) :: rest, k, xs, h => by
    rcases List.mem_cons.1 h with h | h
    · cases h
      exact step xs (tree_induction_aux step xs)
    · exact fields_induction_aux step rest k xs h
end

/-- Induction on trees: a property holds of every sequence of Nodes as soon as it
holds of a sequence whenever it holds of all the arrays stored in its Nodes. -/
theorem tree_induction {motive : List Node → Prop}
    (step : ∀ T, (∀ n ∈ T, ∀ k xs, (k, Value.array xs) ∈ n.fields → motive xs) → motive T)
    (T : List Node) : motive T :=
  step T (tree_induction_aux step T)

/-! ## `filterArray` in the words of the specification -/

theorem filterArray_eq (T : List Node) (P : List String) (K : String)
    (hwf : ∀ n ∈ T, distinctKeys n = true) :
    filterArray T P (some K) =
      (mapE (rebuiltForm P K) T).map (List.filter hasNonEmptyArray) := by
  have hk : keepItem = hasNonEmptyArray := funext keepItem_eq_hasNonEmptyArray
  simp only [filterArray, rebuildItems_eq_mapE, hk]
  rw [mapE_congr T (fun n hn => rebuildItem_eq_rebuiltForm P K n (hwf n hn))]
  cases mapE (rebuiltForm P K) T <;> rfl

/-! ## Nodes with a single array-valued field -/

theorem rebuiltForm_only {P : List String} {K K' : String} {n : Node} {F : List Node → List Node}
    (hkeys : distinctKeys n = true) (honly : onlyArrayField K' n = true)
    (hres : ∀ xs, getField n.fields K' = .array xs →
      (if K' = K then filterE (matchesAll P) xs else filterArray xs P (some K)) = .ok (F xs)) :
    rebuiltForm P K n = .ok (withField n K' (F (children K' n))) := by
  obtain ⟨fs⟩ := n
  simp only [distinctKeys, Node.fields, decide_eq_true_eq] at hkeys
  simp only [onlyArrayField, Node.fields, List.all_eq_true, Bool.or_eq_true,
    Bool.not_eq_true', decide_eq_true_eq] at honly
  simp only [Node.fields] at hres
  simp only [rebuiltForm, withField, Node.fields]
  rw [mapE_pure fs (g := fun kv =>
    if kv.1 = K' ∧ kv.2.isArray = true then (kv.1, .array (F (children K' (.mk fs)))) else kv)]
  · rfl
  · rintro ⟨k, v⟩ hmem
    cases v with
    | array items =>
      have hk : k = K' := by
        rcases honly _ hmem with h | h
        · simp [Value.isArray] at h
        · exact h
      subst hk
      have hget : getField fs k = .array items := getField_of_mem hkeys hmem
      have hch : children k (.mk fs) = items := by simp [children, Node.fields, hget]
      have := hres items hget
      simp only [rebuiltField, hch, Value.isArray, and_self, if_true]
      split
      · next hK => simp only [if_pos hK] at this; simp [this, Except.map]
      · next hK => simp only [if_neg hK] at this; simp [this, Except.map]
    | _ => simp [rebuiltField, Value.isArray]

theorem hasNonEmptyArray_withField {K : String} {n : Node} (ys : List Node)
    (hkeys : distinctKeys n = true) (honly : onlyArrayField K n = true) :
    hasNonEmptyArray (withField n K ys) = (!ys.isEmpty && (getField n.fields K).isArray) := by
  obtain ⟨fs⟩ := n
  simp only [distinctKeys, Node.fields, decide_eq_true_eq] at hkeys
  simp only [onlyArrayField, Node.fields, List.all_eq_true, Bool.or_eq_true,
    Bool.not_eq_true', decide_eq_true_eq] at honly
  simp only [hasNonEmptyArray, withField, Node.fields]
  rw [Bool.eq_iff_iff]
  simp only [List.any_eq_true, List.mem_map, Bool.and_eq_true, Bool.not_eq_true',
    List.isEmpty_eq_false]
  constructor
  · rintro ⟨kv', ⟨kv, hmem, rfl⟩, h⟩
    obtain ⟨k, v⟩ := kv
    cases v with
    | array items =>
      have hk : k = K := by
        rcases honly _ hmem with h' | h'
        · simp [Value.isArray] at h'
        · exact h'
      subst hk
      simp only [Value.isArray, and_self, if_true] at h
      refine ⟨?_, ?_⟩
      · cases ys with
        | nil => simp at h
        | cons y ys => simp
      · rw [getField_of_mem hkeys hmem]
        rfl
    | _ => simp [Value.isArray] at h
  · rintro ⟨hys, harr⟩
    cases hget : getField fs K with
    | array items =>
      refine ⟨_, ⟨(K, .array items), getField_mem_of_array hget, rfl⟩, ?_⟩
      cases ys with
      | nil => simp at hys
      | cons y ys => simp [Value.isArray]
    | _ => simp [hget, Value.isArray] at harr

theorem filterArray_of_rebuiltForm {T : List Node} {P : List String} {K : String}
    {G : Node → Node} (hkeys : ∀ n ∈ T, distinctKeys n = true)
    (h : ∀ n ∈ T, rebuiltForm P K n = .ok (G n)) :
    filterArray T P (some K) = .ok ((T.filter (fun n => hasNonEmptyArray (G n))).map G) := by
  rw [filterArray_eq T P K hkeys, mapE_pure T h]
  simp only [Except.map, List.filter_map]
  rfl

theorem children_isArray_of_ne_nil {K : String} {n : Node} (h : children K n ≠ []) :
    (getField n.fields K).isArray = true := by
  unfold children at h
  split at h
  · next items hget => simp [hget, Value.isArray]
  · exact absurd rfl h

/-- Result of the filter on Nodes whose arrays all sit under the target field. -/
theorem filterArray_level {T : List Node} {P : List String} {K : String}
    (hkeys : ∀ n ∈ T, distinctKeys n = true)
    (honly : ∀ n ∈ T, onlyArrayField K n = true)
    (hnames : ∀ n ∈ T, ∀ c ∈ children K n, hasStringName c = true) :
    filterArray T P (some K) = .ok ((T.filter (hasMatch P K)).map (keepMatches P K)) := by
  rw [filterArray_of_rebuiltForm (G := keepMatches P K) hkeys]
  · congr 2
    apply List.filter_congr
    intro n hn
    unfold keepMatches hasMatch
    rw [hasNonEmptyArray_withField _ (hkeys n hn) (honly n hn), Bool.eq_iff_iff]
    simp only [Bool.and_eq_true, Bool.not_eq_true', List.isEmpty_eq_false, ne_eq,
      List.filter_eq_nil_iff, not_forall, List.any_eq_true]
    constructor
    · rintro ⟨⟨c, hc, hm⟩, _⟩
      exact ⟨c, hc, by simpa using hm⟩
    · rintro ⟨c, hc, hm⟩
      refine ⟨⟨c, hc, by simpa using hm⟩, ?_⟩
      exact children_isArray_of_ne_nil (List.ne_nil_of_mem hc)
  · intro n hn
    apply rebuiltForm_only (F := fun xs => xs.filter (nameContainsAll P)) (hkeys n hn) (honly n hn)
    intro xs hget
    have hch : children K n = xs := by simp [children, hget]
    simp only [if_true]
    apply filterE_pure
    intro c hc
    exact matchesAll_of_hasStringName (hnames n hn c (hch ▸ hc))

theorem filterArray_two_levels {T : List Node} {P : List String} {K K' : String} (hne : K' ≠ K)
    (houter : ∀ r ∈ T, distinctKeys r = true ∧ onlyArrayField K' r = true)
    (hinner : ∀ r ∈ T, ∀ p ∈ children K' r,
      distinctKeys p = true ∧ onlyArrayField K p = true)
    (hnames : ∀ r ∈ T, ∀ p ∈ children K' r, ∀ a ∈ children K p, hasStringName a = true) :
    filterArray T P (some K) =
      .ok ((T.filter (fun r => (children K' r).any (hasMatch P K))).map
        (fun r => withField r K'
          (((children K' r).filter (hasMatch P K)).map (keepMatches P K)))) := by
  rw [filterArray_of_rebuiltForm (G := fun r => withField r K'
    (((children K' r).filter (hasMatch P K)).map (keepMatches P K)))
    (fun r hr => (houter r hr).1)]
  · congr 2
    apply List.filter_congr
    intro r hr
    rw [hasNonEmptyArray_withField _ (houter r hr).1 (houter r hr).2, Bool.eq_iff_iff]
    simp only [Bool.and_eq_true, Bool.not_eq_true', List.isEmpty_eq_false, ne_eq,
      List.map_eq_nil_iff, List.filter_eq_nil_iff, not_forall, List.any_eq_true]
    constructor
    · rintro ⟨⟨c, hc, hm⟩, _⟩
      exact ⟨c, hc, by simpa using hm⟩
    · rintro ⟨c, hc, hm⟩
      refine ⟨⟨c, hc, by simpa using hm⟩, ?_⟩
      exact children_isArray_of_ne_nil (List.ne_nil_of_mem hc)
  · intro r hr
    apply rebuiltForm_only
      (F := fun xs => (xs.filter (hasMatch P K)).map (keepMatches P K)) (houter r hr).1
      (houter r hr).2
    intro xs hget
    have hch : children K' r = xs := by simp [children, hget]
    rw [if_neg hne]
    exact filterArray_level (fun p hp => (hinner r hr p (hch ▸ hp)).1)
      (fun p hp => (hinner r hr p (hch ▸ hp)).2) (fun p hp => hnames r hr p (hch ▸ hp))

/-! ## More on callbacks that may throw -/

theorem mapE_mem {α β : Type} {f : α → Except Error β} {xs : List α} {ys : List β}
    (h : mapE f xs = .ok ys) {y : β} (hy : y ∈ ys) : ∃ x ∈ xs, f x = .ok y := by
  have hall := mapE_ok_iff.1 h
  clear h
  induction hall with
  | nil => cases hy
  | cons hxy _ ih =>
    rcases List.mem_cons.1 hy with hy | hy
    · subst hy
      exact ⟨_, List.mem_cons_self _ _, hxy⟩
    · obtain ⟨x, hx, hfx⟩ := ih hy
      exact ⟨x, List.mem_cons_of_mem _ hx, hfx⟩

theorem mapE_returns {α β : Type} {f : α → Except Error β} (xs : List α)
    (h : ∀ x ∈ xs, ∃ y, f x = .ok y) : ∃ ys, mapE f xs = .ok ys := by
  induction xs with
  | nil => exact ⟨[], rfl⟩
  | cons x rest ih =>
    obtain ⟨y, hy⟩ := h x (List.mem_cons_self _ _)
    obtain ⟨ys, hys⟩ := ih (fun z hz => h z (List.mem_cons_of_mem _ hz))
    exact ⟨y :: ys, by simp only [mapE, hy, hys]⟩

theorem mapE_fixed {α : Type} {f : α → Except Error α} (xs : List α)
    (h : ∀ x ∈ xs, f x = .ok x) : mapE f xs = .ok xs := by
  rw [mapE_pure xs (g := id) h, List.map_id]

theorem mapE_length {α β : Type} {f : α → Except Error β} {xs : List α} {ys : List β}
    (h : mapE f xs = .ok ys) : ys.length = xs.length :=
  (List.Forall₂.length_eq (mapE_ok_iff.1 h)).symm

theorem mapE_filter_drop {α β : Type} {f : α → Except Error β} {p : β → Bool}
    (A B : List α) {x : α} {y : β} (hx : f x = .ok y) (hy : p y = false) :
    (mapE f (A ++ x :: B)).map (List.filter p) = (mapE f (A ++ B)).map (List.filter p) := by
  induction A with
  | nil =>
    simp only [List.nil_append, mapE, hx]
    cases mapE f B with
    | error e => rfl
    | ok ys => simp [Except.map, List.filter_cons, hy]
  | cons a A ih =>
    simp only [List.cons_append, mapE]
    cases f a with
    | error e => rfl
    | ok b =>
      cases h1 : mapE f (A ++ x :: B) with
      | error e =>
        cases h2 : mapE f (A ++ B) with
        | error e' =>
          simp only [h1, h2, Except.map] at ih ⊢
          exact ih
        | ok ys => simp [h1, h2, Except.map] at ih
      | ok ys =>
        cases h2 : mapE f (A ++ B) with
        | error e' => simp [h1, h2, Except.map] at ih
        | ok ys' =>
          simp only [h1, h2, Except.map, Except.ok.injEq] at ih ⊢
          simp only [List.filter_cons, ih]

theorem filterE_ok {α : Type} {p : α → Except Error Bool} {xs ys : List α}
    (h : filterE p xs = .ok ys) :
    ∃ q : α → Bool, (∀ x ∈ xs, p x = .ok (q x)) ∧ ys = xs.filter q := by
  induction xs generalizing ys with
  | nil =>
    cases h
    exact ⟨fun _ => true, ⟨fun _ hx => absurd hx (List.not_mem_nil _), rfl⟩⟩
  | cons x rest ih =>
    simp only [filterE] at h
    cases hx : p x with
    | error e => simp [hx] at h
    | ok b =>
      cases hr : filterE p rest with
      | error e => simp [hx, hr] at h
      | ok zs =>
        simp only [hx, hr, Except.ok.injEq] at h
        obtain ⟨q, hq, hzs⟩ := ih hr
        classical
        refine ⟨fun z => if z ∈ rest then q z else b, ?_, ?_⟩
        · intro z hz
          by_cases hzr : z ∈ rest
          · simp only [hzr, if_true]
            exact hq z hzr
          · rcases List.mem_cons.1 hz with hz | hz
            · subst hz
              simp only [hzr, if_false]
              exact hx
            · exact absurd hz hzr
        · have hb : (if x ∈ rest then q x else b) = b := by
            by_cases hxr : x ∈ rest
            · have := hq x hxr
              rw [hx] at this
              cases this
              simp [hxr]
            · simp [hxr]
          have hrest : rest.filter (fun z => if z ∈ rest then q z else b) = rest.filter q :=
            List.filter_congr (fun z hz => by simp [hz])
          rw [← h, List.filter_cons, hb, hrest, hzs]

theorem filterE_mem {α : Type} {p : α → Except Error Bool} {xs ys : List α}
    (h : filterE p xs = .ok ys) {y : α} (hy : y ∈ ys) : y ∈ xs ∧ p y = .ok true := by
  obtain ⟨q, hq, rfl⟩ := filterE_ok h
  rw [List.mem_filter] at hy
  exact ⟨hy.1, by rw [hq y hy.1, hy.2]⟩

theorem filterE_sublist {α : Type} {p : α → Except Error Bool} {xs ys : List α}
    (h : filterE p xs = .ok ys) : ys.Sublist xs := by
  obtain ⟨q, _, rfl⟩ := filterE_ok h
  exact List.filter_sublist _

theorem filterE_idem {α : Type} {p : α → Except Error Bool} {xs ys : List α}
    (h : filterE p xs = .ok ys) : filterE p ys = .ok ys := by
  rw [filterE_pure ys (q := fun _ => true) (fun y hy => (filterE_mem h hy).2)]
  simp

/-! ## Entries of a rebuilt Node -/

theorem rebuiltField_cases {P : List String} {K : String} {kv kv' : String × Value}
    (h : rebuiltField P K kv = .ok kv') :
    (kv.2.isArray = false ∧ kv' = kv) ∨
    (∃ items kept, kv = (K, .array items) ∧ kv' = (K, .array kept) ∧
      filterE (matchesAll P) items = .ok kept) ∨
    (∃ k items sub, k ≠ K ∧ kv = (k, .array items) ∧ kv' = (k, .array sub) ∧
      filterArray items P (some K) = .ok sub) := by
  obtain ⟨k, v⟩ := kv
  cases v with
  | array items =>
    simp only [rebuiltField] at h
    split at h
    · next hk =>
      subst hk
      cases hf : filterE (matchesAll P) items with
      | error e => simp [hf, Except.map] at h
      | ok kept =>
        simp only [hf, Except.map, Except.ok.injEq] at h
        exact Or.inr (Or.inl ⟨items, kept, rfl, h.symm, hf⟩)
    · next hk =>
      cases hf : filterArray items P (some K) with
      | error e => simp [hf, Except.map] at h
      | ok sub =>
        simp only [hf, Except.map, Except.ok.injEq] at h
        exact Or.inr (Or.inr ⟨k, items, sub, hk, rfl, h.symm, hf⟩)
  | _ =>
    simp only [rebuiltField, Except.ok.injEq] at h
    exact Or.inl ⟨rfl, h.symm⟩

theorem rebuiltForm_ok {P : List String} {K : String} {n m : Node}
    (h : rebuiltForm P K n = .ok m) : mapE (rebuiltField P K) n.fields = .ok m.fields := by
  simp only [rebuiltForm] at h
  cases hm : mapE (rebuiltField P K) n.fields with
  | error e => simp [hm, Except.map] at h
  | ok fs =>
    simp only [hm, Except.map, Except.ok.injEq] at h
    subst h
    rfl

theorem rebuiltForm_keys {P : List String} {K : String} {n m : Node}
    (h : rebuiltForm P K n = .ok m) : keysOf m.fields = keysOf n.fields := by
  have hall := mapE_ok_iff.1 (rebuiltForm_ok h)
  generalize n.fields = fs at hall
  generalize m.fields = gs at hall
  simp only [keysOf]
  induction hall with
  | nil => rfl
  | cons hxy _ ih => simp only [List.map_cons, ih, rebuiltField_key hxy]

theorem rebuiltForm_distinct {P : List String} {K : String} {n m : Node}
    (h : rebuiltForm P K n = .ok m) (hn : distinctKeys n = true) : distinctKeys m = true := by
  simp only [distinctKeys, rebuiltForm_keys h] at hn ⊢
  exact hn

/-- The result of the filter, taken apart: the rebuilt forms of all the Nodes,
of which those with a non-empty array are kept. -/
theorem filterArray_ok {T R : List Node} {P : List String} {K : String}
    (hkeys : ∀ n ∈ T, distinctKeys n = true) (h : filterArray T P (some K) = .ok R) :
    ∃ ms, mapE (rebuiltForm P K) T = .ok ms ∧ R = ms.filter hasNonEmptyArray := by
  rw [filterArray_eq T P K hkeys] at h
  cases hm : mapE (rebuiltForm P K) T with
  | error e => simp [hm, Except.map] at h
  | ok ms =>
    simp only [hm, Except.map, Except.ok.injEq] at h
    exact ⟨ms, rfl, h.symm⟩

theorem filterArray_mem {T R : List Node} {P : List String} {K : String}
    (hkeys : ∀ n ∈ T, distinctKeys n = true) (h : filterArray T P (some K) = .ok R)
    {m : Node} (hm : m ∈ R) :
    hasNonEmptyArray m = true ∧ ∃ n ∈ T, rebuiltForm P K n = .ok m := by
  obtain ⟨ms, hms, rfl⟩ := filterArray_ok hkeys h
  rw [List.mem_filter] at hm
  exact ⟨hm.2, mapE_mem hms hm.1⟩

/-! ## The filter returns on trees whose target children are named -/

theorem namedTree_iff (K : String) (T : List Node) :
    namedTree K T = true ↔
      ∀ n ∈ T, namedChildren K n = true ∧
        ∀ k xs, (k, Value.array xs) ∈ n.fields → namedTree K xs = true := by
  unfold namedTree
  rw [everyNode_iff]
  simp

theorem namedChildren_elim {K : String} {n : Node} (h : namedChildren K n = true)
    {items : List Node} (hmem : (K, Value.array items) ∈ n.fields) :
    ∀ c ∈ items, hasStringName c = true := by
  simp only [namedChildren, List.all_eq_true] at h
  have := h _ hmem
  simpa using this

theorem filterArray_returns (P : List String) (K : String) :
    ∀ T, wfTree T = true → namedTree K T = true → ∃ R, filterArray T P (some K) = .ok R := by
  apply tree_induction
  intro T ih hwf hnamed
  rw [filterArray_eq T P K (fun n hn => wfTree_distinct hwf hn)]
  have hms : ∃ ms, mapE (rebuiltForm P K) T = .ok ms := by
    apply mapE_returns
    intro n hn
    have hfs : ∃ fs, mapE (rebuiltField P K) n.fields = .ok fs := by
      apply mapE_returns
      rintro ⟨k, v⟩ hmem
      cases v with
      | array items =>
        simp only [rebuiltField]
        split
        · next hk =>
          subst hk
          have hnc := namedChildren_elim (((namedTree_iff k T).1 hnamed n hn).1) hmem
          rw [filterE_pure items (fun c hc => matchesAll_of_hasStringName (hnc c hc))]
          exact ⟨_, rfl⟩
        · obtain ⟨sub, hsub⟩ := ih n hn k items hmem (wfTree_sub hwf hn hmem)
            (((namedTree_iff K T).1 hnamed n hn).2 k items hmem)
          rw [hsub]
          exact ⟨_, rfl⟩
      | _ => exact ⟨_, rfl⟩
    obtain ⟨fs, hfs⟩ := hfs
    exact ⟨.mk fs, by simp [rebuiltForm, hfs, Except.map]⟩
  obtain ⟨ms, hms⟩ := hms
  exact ⟨_, by rw [hms]; rfl⟩

/-! ## A filtered tree is a fixed point of the filter -/

theorem filterArray_fixed (P : List String) (K : String) :
    ∀ T, wfTree T = true → ∀ R, filterArray T P (some K) = .ok R →
      filterArray R P (some K) = .ok R := by
  apply tree_induction
  intro T ih hwf R h
  have hkeys : ∀ n ∈ T, distinctKeys n = true := fun n hn => wfTree_distinct hwf hn
  have hkeysR : ∀ m ∈ R, distinctKeys m = true := by
    intro m hm
    obtain ⟨_, n, hn, hnm⟩ := filterArray_mem hkeys h hm
    exact rebuiltForm_distinct hnm (hkeys n hn)
  have hfix : ∀ m ∈ R, rebuiltForm P K m = .ok m := by
    intro m hm
    obtain ⟨_, n, hn, hnm⟩ := filterArray_mem hkeys h hm
    have hfs : mapE (rebuiltField P K) m.fields = .ok m.fields := by
      apply mapE_fixed
      intro kv' hkv'
      obtain ⟨kv, hkv, hr⟩ := mapE_mem (rebuiltForm_ok hnm) hkv'
      rcases rebuiltField_cases hr with ⟨hsc, rfl⟩ | ⟨items, kept, rfl, rfl, hf⟩ |
        ⟨k, items, sub, hk, rfl, rfl, hf⟩
      · obtain ⟨k, v⟩ := kv'
        cases v with
        | array items => simp [Value.isArray] at hsc
        | _ => rfl
      · simp [rebuiltField, filterE_idem hf, Except.map]
      · have := ih n hn k items hkv (wfTree_sub hwf hn hkv) sub hf
        simp [rebuiltField, hk, this, Except.map]
    obtain ⟨fs⟩ := m
    simp only [Node.fields] at hfs
    simp [rebuiltForm, Node.fields, hfs, Except.map]
  rw [filterArray_eq R P K hkeysR, mapE_fixed R hfix]
  simp only [Except.map, Except.ok.injEq, List.filter_eq_self]
  intro m hm
  exact (filterArray_mem hkeys h hm).1

/-! ## The filter only deletes Nodes -/

theorem prunedFields_refl (fs : Fields)
    (h : ∀ k xs, (k, Value.array xs) ∈ fs → PrunedTree xs xs) : PrunedFields fs fs := by
  induction fs with
  | nil => exact PrunedFields.nil
  | cons kv rest ih =>
    obtain ⟨k, v⟩ := kv
    have hrest := ih (fun k xs hmem => h k xs (List.mem_cons_of_mem _ hmem))
    cases v with
    | array items => exact PrunedFields.array k (h k items (List.mem_cons_self _ _)) hrest
    | _ => exact PrunedFields.scalar k _ rfl hrest

theorem prunedTree_of_sublist {ys xs : List Node} (h : ys.Sublist xs)
    (hrefl : ∀ x ∈ xs, PrunedNode x x) : PrunedTree ys xs := by
  induction h with
  | slnil => exact PrunedTree.nil
  | cons x _ ih =>
    exact PrunedTree.drop x (ih (fun z hz => hrefl z (List.mem_cons_of_mem _ hz)))
  | cons₂ x _ ih =>
    exact PrunedTree.keep (hrefl x (List.mem_cons_self _ _))
      (ih (fun z hz => hrefl z (List.mem_cons_of_mem _ hz)))

theorem prunedTree_refl : ∀ T : List Node, PrunedTree T T := by
  apply tree_induction
  intro T ih
  apply prunedTree_of_sublist (List.Sublist.refl T)
  intro n hn
  obtain ⟨fs⟩ := n
  exact PrunedNode.mk (prunedFields_refl fs (fun k xs hmem => ih _ hn k xs hmem))

theorem prunedNode_refl (n : Node) : PrunedNode n n := by
  obtain ⟨fs⟩ := n
  exact PrunedNode.mk (prunedFields_refl fs (fun _ xs _ => prunedTree_refl xs))

theorem prunedFields_of_rebuilt {P : List String} {K : String} {fs gs : Fields}
    (hall : List.Forall₂ (fun kv kv' => rebuiltField P K kv = .ok kv') fs gs)
    (hsub : ∀ k items sub, (k, Value.array items) ∈ fs →
      filterArray items P (some K) = .ok sub → PrunedTree sub items) :
    PrunedFields gs fs := by
  induction hall with
  | nil => exact PrunedFields.nil
  | @cons kv kv' fs gs hr _ ih =>
    have hrest := ih (fun k items sub hmem => hsub k items sub (List.mem_cons_of_mem _ hmem))
    rcases rebuiltField_cases hr with ⟨hsc, rfl⟩ | ⟨items, kept, rfl, rfl, hf⟩ |
      ⟨k, items, sub, _, rfl, rfl, hf⟩
    · obtain ⟨k, v⟩ := kv'
      exact PrunedFields.scalar k v hsc hrest
    · exact PrunedFields.array K
        (prunedTree_of_sublist (filterE_sublist hf) (fun x _ => prunedNode_refl x)) hrest
    · exact PrunedFields.array k (hsub k items sub (List.mem_cons_self _ _) hf) hrest

theorem prunedTree_filter {P : List String} {K : String} {T ms : List Node} (p : Node → Bool)
    (hall : List.Forall₂ (fun n m => rebuiltForm P K n = .ok m) T ms)
    (hnode : ∀ n ∈ T, ∀ m, rebuiltForm P K n = .ok m → PrunedNode m n) :
    PrunedTree (ms.filter p) T := by
  induction hall with
  | nil => exact PrunedTree.nil
  | @cons n m T ms hr _ ih =>
    have hrest := ih (fun z hz => hnode z (List.mem_cons_of_mem _ hz))
    rw [List.filter_cons]
    split
    · exact PrunedTree.keep (hnode n (List.mem_cons_self _ _) m hr) hrest
    · exact PrunedTree.drop n hrest

theorem filterArray_pruned (P : List String) (K : String) :
    ∀ T, wfTree T = true → ∀ R, filterArray T P (some K) = .ok R → PrunedTree R T := by
  apply tree_induction
  intro T ih hwf R h
  have hkeys : ∀ n ∈ T, distinctKeys n = true := fun n hn => wfTree_distinct hwf hn
  obtain ⟨ms, hms, rfl⟩ := filterArray_ok hkeys h
  apply prunedTree_filter _ (mapE_ok_iff.1 hms)
  intro n hn m hnm
  have hfs := mapE_ok_iff.1 (rebuiltForm_ok hnm)
  obtain ⟨fs⟩ := n
  obtain ⟨gs⟩ := m
  exact PrunedNode.mk (prunedFields_of_rebuilt hfs
    (fun k items sub hmem hf => ih _ hn k items hmem (wfTree_sub hwf hn hmem) sub hf))

/-! ## The empty pattern list -/

theorem fullTree_iff (K : String) (T : List Node) :
    fullTree K T = true ↔
      ∀ n ∈ T, hasNonEmptyArray n = true ∧
        ∀ k xs, (k, Value.array xs) ∈ n.fields → k ≠ K → fullTree K xs = true := by
  unfold fullTree
  rw [everyNode_iff]
  simp

theorem filterE_matchesAll_nil (items : List Node) :
    filterE (matchesAll []) items = .ok items := by
  rw [filterE_pure items (q := fun _ => true) (fun c _ => matchesAll_nil c)]
  simp

theorem filterArray_nil_of_full (K : String) :
    ∀ T, wfTree T = true → fullTree K T = true → filterArray T [] (some K) = .ok T := by
  apply tree_induction
  intro T ih hwf hfull
  have hkeys : ∀ n ∈ T, distinctKeys n = true := fun n hn => wfTree_distinct hwf hn
  have hfix : ∀ n ∈ T, rebuiltForm [] K n = .ok n := by
    intro n hn
    have hfs : mapE (rebuiltField [] K) n.fields = .ok n.fields := by
      apply mapE_fixed
      rintro ⟨k, v⟩ hmem
      cases v with
      | array items =>
        simp only [rebuiltField]
        split
        · simp [filterE_matchesAll_nil, Except.map]
        · next hk =>
          have := ih n hn k items hmem (wfTree_sub hwf hn hmem)
            (((fullTree_iff K T).1 hfull n hn).2 k items hmem hk)
          simp [this, Except.map]
      | _ => rfl
    obtain ⟨fs⟩ := n
    simp only [Node.fields] at hfs
    simp [rebuiltForm, Node.fields, hfs, Except.map]
  rw [filterArray_eq T [] K hkeys, mapE_fixed T hfix]
  simp only [Except.map, Except.ok.injEq, List.filter_eq_self]
  intro n hn
  exact ((fullTree_iff K T).1 hfull n hn).1

theorem full_of_filterArray_nil (K : String) :
    ∀ T, wfTree T = true → filterArray T [] (some K) = .ok T → fullTree K T = true := by
  apply tree_induction
  intro T ih hwf h
  have hkeys : ∀ n ∈ T, distinctKeys n = true := fun n hn => wfTree_distinct hwf hn
  obtain ⟨ms, hms, hT⟩ := filterArray_ok hkeys h
  have hlen : (ms.filter hasNonEmptyArray).length = ms.length := by
    rw [← hT, mapE_length hms]
  have hall : ms.filter hasNonEmptyArray = ms :=
    (List.filter_sublist ms).eq_of_length hlen
  rw [hall] at hT
  subst hT
  have hfix : ∀ n ∈ T, rebuiltForm [] K n = .ok n := List.forall₂_same.1 (mapE_ok_iff.1 hms)
  rw [fullTree_iff]
  intro n hn
  refine ⟨(List.filter_eq_self.1 hall) n hn, ?_⟩
  intro k xs hmem hk
  apply ih n hn k xs hmem (wfTree_sub hwf hn hmem)
  have hfs : ∀ kv ∈ n.fields, rebuiltField [] K kv = .ok kv :=
    List.forall₂_same.1 (mapE_ok_iff.1 (rebuiltForm_ok (hfix n hn)))
  have := hfs _ hmem
  simp only [rebuiltField, if_neg hk] at this
  cases hsub : filterArray xs [] (some K) with
  | error e => simp [hsub, Except.map] at this
  | ok sub =>
    simp only [hsub, Except.map, Except.ok.injEq, Prod.mk.injEq, Value.array.injEq,
      true_and] at this
    rw [this]

/-! ## Arrays under the target field in the output -/

theorem filterArray_target_match (P : List String) (K : String) :
    ∀ T, wfTree T = true → ∀ R, filterArray T P (some K) = .ok R →
      everyNode (fun k => decide (k ≠ K)) (targetChildrenMatch P K) R = true := by
  apply tree_induction
  intro T ih hwf R h
  have hkeys : ∀ n ∈ T, distinctKeys n = true := fun n hn => wfTree_distinct hwf hn
  rw [everyNode_iff]
  intro m hm
  obtain ⟨_, n, hn, hnm⟩ := filterArray_mem hkeys h hm
  constructor
  · simp only [targetChildrenMatch, List.all_eq_true]
    intro kv' hkv'
    obtain ⟨kv, hkv, hr⟩ := mapE_mem (rebuiltForm_ok hnm) hkv'
    rcases rebuiltField_cases hr with ⟨hsc, rfl⟩ | ⟨items, kept, rfl, rfl, hf⟩ |
      ⟨k, items, sub, hk, rfl, rfl, hf⟩
    · obtain ⟨k, v⟩ := kv'
      cases v with
      | array items => simp [Value.isArray] at hsc
      | _ => rfl
    · simp only [ne_eq, not_true_eq_false, decide_False, Bool.false_or, List.all_eq_true]
      intro c hc
      exact (matchesAll_ok (filterE_mem hf hc).2).symm
    · simp [hk]
  · intro k xs hmem hd
    obtain ⟨kv, hkv, hr⟩ := mapE_mem (rebuiltForm_ok hnm) hmem
    rcases rebuiltField_cases hr with ⟨hsc, rfl⟩ | ⟨items, kept, rfl, hk', hf⟩ |
      ⟨k', items, sub, hk, rfl, hk', hf⟩
    · simp [Value.isArray] at hsc
    · cases hk'
      simp at hd
    · cases hk'
      exact ih n hn k items hkv (wfTree_sub hwf hn hkv) xs hf

/-! ## Nodes that the filter removes -/

theorem filterArray_drop {A B : List Node} {n : Node} {P : List String} {K : String}
    (hkeys : ∀ m ∈ A ++ n :: B, distinctKeys m = true)
    (honly : onlyArrayField K n = true)
    (hnames : ∀ c ∈ children K n, hasStringName c = true)
    (hnone : hasMatch P K n = false) :
    filterArray (A ++ n :: B) P (some K) = filterArray (A ++ B) P (some K) := by
  have hn : distinctKeys n = true := hkeys n (by simp)
  have hkeys' : ∀ m ∈ A ++ B, distinctKeys m = true := by
    intro m hm
    apply hkeys m
    rcases List.mem_append.1 hm with h | h
    · exact List.mem_append_left _ h
    · exact List.mem_append_right _ (List.mem_cons_of_mem _ h)
  have hform : rebuiltForm P K n = .ok (keepMatches P K n) := by
    apply rebuiltForm_only (F := fun xs => xs.filter (nameContainsAll P)) hn honly
    intro xs hget
    have hch : children K n = xs := by simp [children, hget]
    simp only [if_true]
    apply filterE_pure
    intro c hc
    exact matchesAll_of_hasStringName (hnames c (hch ▸ hc))
  have hdrop : hasNonEmptyArray (keepMatches P K n) = false := by
    unfold keepMatches
    rw [hasNonEmptyArray_withField _ hn honly]
    have : (children K n).filter (nameContainsAll P) = [] := by
      simp only [hasMatch, List.any_eq_false] at hnone
      simp only [List.filter_eq_nil_iff]
      exact hnone
    simp [this]
  rw [filterArray_eq _ P K hkeys, filterArray_eq _ P K hkeys']
  exact mapE_filter_drop A B hform hdrop

theorem onlyArrayField_of_no_array {K : String} {n : Node}
    (h : ∀ kv ∈ n.fields, kv.2.isArray = false) :
    onlyArrayField K n = true ∧ children K n = [] := by
  constructor
  · simp only [onlyArrayField, List.all_eq_true]
    intro kv hkv
    simp [h kv hkv]
  · unfold children
    split
    · next items hget =>
      have := h _ (getField_mem_of_array hget)
      simp [Value.isArray] at this
    · rfl

/-! ## Objects built by `countArray` -/

theorem nodup_setField {fs : Fields} (k : String) (v : Value) (h : (keysOf fs).Nodup) :
    (keysOf (setField fs k v)).Nodup := by
  rw [keysOf_setField]
  split
  · exact h
  · next hk =>
    rw [List.nodup_append]
    refine ⟨h, List.nodup_singleton k, ?_⟩
    intro a ha hb
    rw [List.mem_singleton] at hb
    subst hb
    exact hk ha

theorem mem_keysOf_setField {fs : Fields} {k k' : String} (v : Value) (h : k' ∈ keysOf fs) :
    k' ∈ keysOf (setField fs k v) := by
  rw [keysOf_setField]
  split
  · exact h
  · exact List.mem_append_left _ h

theorem keysOf_spread (src base : Fields) (hsrc : (keysOf src).Nodup) :
    keysOf (spread base src) =
      keysOf base ++ (keysOf src).filter (fun k => decide (k ∉ keysOf base)) := by
  induction src generalizing base with
  | nil => simp [spread, keysOf]
  | cons kv rest ih =>
    obtain ⟨k, v⟩ := kv
    simp only [keysOf, List.map_cons, List.nodup_cons] at hsrc
    have hstep : spread base ((k, v) :: rest) = spread (setField base k v) rest := rfl
    rw [hstep, ih _ hsrc.2, keysOf_setField]
    simp only [keysOf, List.map_cons, List.filter_cons]
    by_cases hk : k ∈ List.map Prod.fst base
    · simp only [hk, if_true, not_true_eq_false, decide_False, Bool.false_eq_true, if_false]
    · simp only [hk, if_false, not_false_eq_true, decide_True, if_true, List.append_assoc,
        List.singleton_append, List.append_cancel_left_eq, List.cons.injEq, true_and]
      apply List.filter_congr
      intro a ha
      have hne : a ≠ k := fun e => hsrc.1 (e ▸ ha)
      simp [hne]

theorem getField_spread (src base : Fields) (k : String) (hsrc : (keysOf src).Nodup) :
    getField (spread base src) k =
      if k ∈ keysOf src then getField src k else getField base k := by
  induction src generalizing base with
  | nil => simp [spread, keysOf]
  | cons kv rest ih =>
    obtain ⟨k₀, v₀⟩ := kv
    simp only [keysOf, List.map_cons, List.nodup_cons] at hsrc
    have hstep : spread base ((k₀, v₀) :: rest) = spread (setField base k₀ v₀) rest := rfl
    rw [hstep, ih _ hsrc.2]
    by_cases hk : k₀ = k
    · subst hk
      have hnot : k₀ ∉ keysOf rest := hsrc.1
      rw [if_neg hnot, getField_setField_same]
      simp [keysOf, getField]
    · have hk' : ¬ k = k₀ := fun e => hk e.symm
      simp only [keysOf, List.map_cons, List.mem_cons, hk', false_or, getField, if_neg hk]
      split
      · rfl
      · exact getField_setField_ne _ _ hk

theorem nodup_spread_single (k : String) (v : Value) {cur : Fields}
    (h : (keysOf cur).Nodup) : (keysOf (spread [(k, v)] cur)).Nodup := by
  rw [keysOf_spread cur _ h, List.nodup_append]
  refine ⟨by simp [keysOf], h.filter _, ?_⟩
  intro a ha hb
  rw [List.mem_filter] at hb
  exact (of_decide_eq_true hb.2) ha

theorem isAcc_init (v : Value) : IsAcc [("name", v)] := by
  simp [IsAcc, keysOf]

theorem isAcc_array {cur : Fields} (h : IsAcc cur) (k : String) (v w : Value) :
    IsAcc (setField (setField cur k v) "name" w) :=
  ⟨nodup_setField _ _ (nodup_setField _ _ h.1),
    mem_keysOf_setField _ (mem_keysOf_setField _ h.2)⟩

theorem isAcc_scalar {cur : Fields} (h : IsAcc cur) (k : String) (v : Value) :
    IsAcc (spread [(k, v)] cur) := by
  refine ⟨nodup_spread_single k v h.1, ?_⟩
  rw [keysOf_spread cur _ h.1]
  by_cases hk : "name" = k
  · subst hk
    simp [keysOf]
  · apply List.mem_append_right
    rw [List.mem_filter]
    exact ⟨h.2, by simp [keysOf, hk]⟩

theorem getField_name_scalar {cur : Fields} (h : IsAcc cur) (k : String) (v : Value) :
    getField (spread [(k, v)] cur) "name" = getField cur "name" := by
  rw [getField_spread cur _ _ h.1, if_pos h.2]

theorem countKeys_cons_array (k : String) (items : List Node) (rest cur : Fields) :
    countKeys ((k, .array items) :: rest) cur =
      countKeys rest (setField (setField cur k (.array (countArray items))) "name"
        (suffixed (getField cur "name") items.length)) := by
  simp only [countKeys]

theorem countKeys_cons_scalar (k : String) (v : Value) (rest cur : Fields)
    (hv : v.isArray = false) :
    countKeys ((k, v) :: rest) cur = countKeys rest (spread [(k, v)] cur) := by
  cases v with
  | array items => simp [Value.isArray] at hv
  | _ => simp only [countKeys]

/-! ## The name written by `countArray` -/

theorem string_join_cons (s : String) (ss : List String) :
    String.join (s :: ss) = s ++ String.join ss := by
  apply String.ext
  simp [String.data_join, String.data_append]

theorem foldl_segments_str (segs : List String) (s : String) :
    segs.foldl (fun v seg => Value.str (toStr v ++ seg)) (.str s) =
      .str (s ++ String.join segs) := by
  induction segs generalizing s with
  | nil =>
    simp only [List.foldl_nil]
    congr 1
    apply String.ext
    simp [String.data_join, String.data_append]
  | cons seg rest ih =>
    have hstep : toStr (.str s) = s := rfl
    rw [List.foldl_cons, hstep, ih, string_join_cons, String.append_assoc]

theorem foldl_segments (segs : List String) (v : Value) :
    segs.foldl (fun v seg => Value.str (toStr v ++ seg)) v =
      match segs with
      | [] => v
      | segments => .str (toStr v ++ String.join segments) := by
  cases segs with
  | nil => rfl
  | cons seg rest =>
    simp only [List.foldl_cons, foldl_segments_str, string_join_cons, String.append_assoc]

theorem countSegments_cons_array (k : String) (items : List Node) (rest : Fields) :
    countSegments ((k, .array items) :: rest) =
      (" [" ++ toString items.length ++ "]") :: countSegments rest := by
  simp [countSegments, List.filterMap_cons]

theorem countSegments_cons_scalar (k : String) (v : Value) (rest : Fields)
    (hv : v.isArray = false) : countSegments ((k, v) :: rest) = countSegments rest := by
  cases v with
  | array items => simp [Value.isArray] at hv
  | _ => simp [countSegments, List.filterMap_cons]

theorem countKeys_name (fs cur : Fields) (hcur : IsAcc cur) :
    getField (countKeys fs cur) "name" =
      (countSegments fs).foldl (fun v seg => Value.str (toStr v ++ seg))
        (getField cur "name") := by
  induction fs generalizing cur with
  | nil => simp [countKeys, countSegments]
  | cons kv rest ih =>
    obtain ⟨k, v⟩ := kv
    cases hv : v.isArray with
    | true =>
      cases v with
      | array items =>
        rw [countKeys_cons_array, ih _ (isAcc_array hcur _ _ _), countSegments_cons_array,
          List.foldl_cons, getField_setField_same]
        simp only [suffixed, String.append_assoc]
      | _ => simp [Value.isArray] at hv
    | false =>
      rw [countKeys_cons_scalar _ _ _ _ hv, ih _ (isAcc_scalar hcur _ _),
        countSegments_cons_scalar _ _ _ hv, getField_name_scalar hcur]

theorem countItem_name (n : Node) : getField (countItem n).fields "name" = annotatedName n := by
  obtain ⟨fs⟩ := n
  simp only [countItem, Node.fields, annotatedName]
  rw [countKeys_name fs _ (isAcc_init _), foldl_segments]
  simp [getField]

/-! ## The arrays written by `countArray` -/

theorem countKeys_frame (fs cur : Fields) (k : String) (hcur : IsAcc cur)
    (hk : k ∉ keysOf fs) (hname : k ≠ "name") :
    getField (countKeys fs cur) k = getField cur k := by
  induction fs generalizing cur with
  | nil => simp [countKeys]
  | cons kv rest ih =>
    obtain ⟨k₀, v⟩ := kv
    simp only [keysOf, List.map_cons, List.mem_cons, not_or] at hk
    have hne : k₀ ≠ k := fun e => hk.1 e.symm
    cases hv : v.isArray with
    | true =>
      cases v with
      | array items =>
        rw [countKeys_cons_array, ih _ (isAcc_array hcur _ _ _) hk.2,
          getField_setField_ne _ _ (Ne.symm hname), getField_setField_ne _ _ hne]
      | _ => simp [Value.isArray] at hv
    | false =>
      rw [countKeys_cons_scalar _ _ _ _ hv, ih _ (isAcc_scalar hcur _ _) hk.2,
        getField_spread cur _ _ hcur.1]
      split
      · rfl
      · next hnot =>
        rw [getField_of_not_mem hnot]
        simp [getField, hne]

theorem countKeys_array (fs cur : Fields) (k : String) (xs : List Node) (hcur : IsAcc cur)
    (hnd : (keysOf fs).Nodup) (hmem : (k, Value.array xs) ∈ fs) (hname : k ≠ "name") :
    getField (countKeys fs cur) k = .array (countArray xs) := by
  induction fs generalizing cur with
  | nil => cases hmem
  | cons kv rest ih =>
    obtain ⟨k₀, v⟩ := kv
    simp only [keysOf, List.map_cons, List.nodup_cons] at hnd
    rcases List.mem_cons.1 hmem with h | h
    · cases h
      rw [countKeys_cons_array, countKeys_frame _ _ _ (isAcc_array hcur _ _ _) hnd.1 hname,
        getField_setField_ne _ _ (Ne.symm hname), getField_setField_same]
    · cases hv : v.isArray with
      | true =>
        cases v with
        | array items =>
          rw [countKeys_cons_array]
          exact ih _ (isAcc_array hcur _ _ _) hnd.2 h
        | _ => simp [Value.isArray] at hv
      | false =>
        rw [countKeys_cons_scalar _ _ _ _ hv]
        exact ih _ (isAcc_scalar hcur _ _) hnd.2 h

/-! ## Scalars and field order in the output of `countArray` -/

theorem countKeys_scalar (fs cur : Fields) (k : String) (v : Value) (hcur : IsAcc cur)
    (hnd : (keysOf fs).Nodup) (hmem : (k, v) ∈ fs) (hv : v.isArray = false)
    (hname : k ≠ "name") (hk : k ∉ keysOf cur) :
    getField (countKeys fs cur) k = v := by
  induction fs generalizing cur with
  | nil => cases hmem
  | cons kv rest ih =>
    obtain ⟨k₀, v₀⟩ := kv
    simp only [keysOf, List.map_cons, List.nodup_cons] at hnd
    rcases List.mem_cons.1 hmem with h | h
    · cases h
      rw [countKeys_cons_scalar _ _ _ _ hv,
        countKeys_frame _ _ _ (isAcc_scalar hcur _ _) hnd.1 hname,
        getField_spread cur _ _ hcur.1, if_neg hk]
      simp [getField]
    · have hne : k ≠ k₀ := by
        intro e
        subst e
        exact hnd.1 (List.mem_map.2 ⟨(k, v), h, rfl⟩)
      cases hv₀ : v₀.isArray with
      | true =>
        cases v₀ with
        | array items =>
          rw [countKeys_cons_array]
          apply ih _ (isAcc_array hcur _ _ _) hnd.2 h
          rw [keysOf_setField, if_pos (mem_keysOf_setField _ hcur.2), keysOf_setField]
          split
          · exact hk
          · simp [hk, hne]
        | _ => simp [Value.isArray] at hv₀
      | false =>
        rw [countKeys_cons_scalar _ _ _ _ hv₀]
        apply ih _ (isAcc_scalar hcur _ _) hnd.2 h
        rw [keysOf_spread cur _ hcur.1]
        simp only [keysOf, List.map_cons, List.map_nil, List.singleton_append, List.mem_cons,
          List.mem_filter, not_or, not_and]
        exact ⟨hne, fun hmem' => absurd hmem' hk⟩

theorem scalarKeys_subset (fs : Fields) {k : String} (h : k ∈ scalarKeys fs) : k ∈ keysOf fs := by
  simp only [scalarKeys, keysOf, List.mem_map, List.mem_filter] at h ⊢
  obtain ⟨kv, ⟨hmem, _⟩, rfl⟩ := h
  exact ⟨kv, hmem, rfl⟩

theorem arrayKeys_subset (fs : Fields) {k : String} (h : k ∈ arrayKeys fs) : k ∈ keysOf fs := by
  simp only [arrayKeys, keysOf, List.mem_map, List.mem_filter] at h ⊢
  obtain ⟨kv, ⟨hmem, _⟩, rfl⟩ := h
  exact ⟨kv, hmem, rfl⟩

theorem keysOf_countKeys (fs cur : Fields) (hcur : IsAcc cur) (hnd : (keysOf fs).Nodup)
    (hdis : ∀ k ∈ arrayKeys fs, k ∉ keysOf cur) :
    keysOf (countKeys fs cur) =
      (scalarKeys fs).reverse ++
        (keysOf cur).filter (fun k => decide (k ∉ scalarKeys fs)) ++ arrayKeys fs := by
  induction fs generalizing cur with
  | nil => simp [countKeys, scalarKeys, arrayKeys, keysOf]
  | cons kv rest ih =>
    obtain ⟨k, v⟩ := kv
    simp only [keysOf, List.map_cons, List.nodup_cons] at hnd
    have hkS : k ∉ scalarKeys rest := fun h => hnd.1 (scalarKeys_subset rest h)
    have hkA : k ∉ arrayKeys rest := fun h => hnd.1 (arrayKeys_subset rest h)
    cases hv : v.isArray with
    | true =>
      cases v with
      | array items =>
        have hS : scalarKeys ((k, Value.array items) :: rest) = scalarKeys rest := by
          simp [scalarKeys, List.filter_cons, Value.isArray]
        have hA : arrayKeys ((k, Value.array items) :: rest) = k :: arrayKeys rest := by
          simp [arrayKeys, List.filter_cons, Value.isArray, keysOf]
        have hk : k ∉ keysOf cur := hdis k (by rw [hA]; exact List.mem_cons_self _ _)
        have hkeys : keysOf (setField (setField cur k (.array (countArray items))) "name"
            (suffixed (getField cur "name") items.length)) = keysOf cur ++ [k] := by
          rw [keysOf_setField, if_pos (mem_keysOf_setField _ hcur.2), keysOf_setField, if_neg hk]
        rw [countKeys_cons_array, ih _ (isAcc_array hcur _ _ _) hnd.2, hkeys, hS, hA]
        · simp [List.filter_append, hkS]
        · intro a ha
          rw [hkeys]
          simp only [List.mem_append, List.mem_singleton, not_or]
          refine ⟨hdis a (by rw [hA]; exact List.mem_cons_of_mem _ ha), ?_⟩
          intro e
          exact hkA (e ▸ ha)
      | _ => simp [Value.isArray] at hv
    | false =>
      have hS : scalarKeys ((k, v) :: rest) = k :: scalarKeys rest := by
        simp [scalarKeys, List.filter_cons, hv, keysOf]
      have hA : arrayKeys ((k, v) :: rest) = arrayKeys rest := by
        simp [arrayKeys, List.filter_cons, hv]
      have hkeys : keysOf (spread [(k, v)] cur) =
          k :: (keysOf cur).filter (fun a => decide (a ≠ k)) := by
        rw [keysOf_spread cur _ hcur.1]
        simp [keysOf]
      rw [countKeys_cons_scalar _ _ _ _ hv, ih _ (isAcc_scalar hcur _ _) hnd.2, hkeys, hS, hA]
      · simp only [List.filter_cons, hkS, not_false_eq_true, decide_True, if_true,
          List.reverse_cons, List.append_assoc, List.singleton_append, List.filter_filter]
        congr 3
        apply List.filter_congr
        intro a _
        simp [Bool.and_comm]
      · intro a ha
        rw [hkeys]
        simp only [List.mem_cons, List.mem_filter, not_or, not_and]
        refine ⟨fun e => hkA (e ▸ ha), fun hmem => ?_⟩
        exact absurd hmem (hdis a (by rw [hA]; exact ha))

theorem keysOf_countItem (n : Node) (hkeys : distinctKeys n = true)
    (hname : "name" ∈ scalarKeys n.fields) :
    keysOf (countItem n).fields = (scalarKeys n.fields).reverse ++ arrayKeys n.fields := by
  obtain ⟨fs⟩ := n
  simp only [distinctKeys, Node.fields, decide_eq_true_eq] at hkeys
  simp only [Node.fields] at hname
  simp only [countItem, Node.fields]
  rw [keysOf_countKeys fs _ (isAcc_init _) hkeys]
  · simp [keysOf, hname]
  · intro a ha
    simp only [keysOf, List.map_cons, List.map_nil, List.mem_singleton]
    intro e
    subst e
    simp only [arrayKeys, scalarKeys, keysOf, List.mem_map, List.mem_filter] at ha hname
    obtain ⟨⟨k₁, v₁⟩, ⟨h₁, hv₁⟩, e₁⟩ := ha
    obtain ⟨⟨k₂, v₂⟩, ⟨h₂, hv₂⟩, e₂⟩ := hname
    simp only at e₁ e₂
    subst e₁ e₂
    have := (getField_of_mem hkeys h₁).symm.trans (getField_of_mem hkeys h₂)
    subst this
    simp [hv₁] at hv₂

theorem keysOf_perm_partition (fs : Fields) :
    ((scalarKeys fs).reverse ++ arrayKeys fs).Perm (keysOf fs) := by
  have h1 : ((scalarKeys fs).reverse ++ arrayKeys fs).Perm (arrayKeys fs ++ scalarKeys fs) :=
    (List.perm_append_comm).trans ((List.reverse_perm _).append_left _)
  refine h1.trans ?_
  simp only [arrayKeys, scalarKeys, keysOf, ← List.map_append]
  exact (List.filter_append_perm _ fs).map _

/-! ## Corresponding Nodes of the input and of the output of `countArray` -/

theorem countArray_eq_map (T : List Node) : countArray T = T.map countItem := by
  induction T with
  | nil => simp [countArray]
  | cons n rest ih => simp [countArray, ih]

theorem nodeAt_countArray (path : List (String × Nat)) :
    ∀ (T : List Node) (i : Nat) (n : Node), wfTree T = true →
      (∀ kj ∈ path, kj.1 ≠ "name") → nodeAt T i path = some n →
      nodeAt (countArray T) i path = some (countItem n) := by
  induction path with
  | nil =>
    intro T i n _ _ h
    simp only [nodeAt] at h ⊢
    rw [countArray_eq_map, List.getElem?_map, h]
    rfl
  | cons kj path ih =>
    obtain ⟨k, j⟩ := kj
    intro T i n hwf hpath h
    simp only [nodeAt] at h ⊢
    cases hi : T[i]? with
    | none => simp [hi] at h
    | some m =>
      have hm : m ∈ T := List.getElem?_mem hi
      simp only [hi] at h
      cases hget : getField m.fields k with
      | array items =>
        simp only [hget] at h
        have hmem := getField_mem_of_array hget
        have hk : k ≠ "name" := hpath (k, j) (List.mem_cons_self _ _)
        have hout : getField (countItem m).fields k = .array (countArray items) := by
          have hnd := ((wfTree_iff T).1 hwf m hm).1
          obtain ⟨fs⟩ := m
          exact countKeys_array fs _ k items (isAcc_init _) hnd hmem hk
        rw [countArray_eq_map, List.getElem?_map, hi]
        simp only [Option.map_some', hout]
        exact ih items j n (wfTree_sub hwf hm hmem)
          (fun kj hkj => hpath kj (List.mem_cons_of_mem _ hkj)) h
      | _ => simp [hget] at h

theorem wfTree_singleton {T : List Node} (hwf : wfTree T = true) {n : Node} (hn : n ∈ T) :
    wfTree [n] = true := by
  rw [wfTree_iff]
  intro m hm
  rw [List.mem_singleton] at hm
  subst hm
  exact (wfTree_iff T).1 hwf m hn

theorem nodeAt_wf (path : List (String × Nat)) :
    ∀ (T : List Node) (i : Nat) (n : Node), wfTree T = true → nodeAt T i path = some n →
      wfTree [n] = true := by
  induction path with
  | nil =>
    intro T i n hwf h
    simp only [nodeAt] at h
    exact wfTree_singleton hwf (List.getElem?_mem h)
  | cons kj path ih =>
    obtain ⟨k, j⟩ := kj
    intro T i n hwf h
    simp only [nodeAt] at h
    cases hi : T[i]? with
    | none => simp [hi] at h
    | some m =>
      simp only [hi] at h
      cases hget : getField m.fields k with
      | array items =>
        simp only [hget] at h
        exact ih items j n
          (wfTree_sub hwf (List.getElem?_mem hi) (getField_mem_of_array hget)) h
      | _ => simp [hget] at h

/-! ## Recognized tokens -/

theorem indexOfFrom_ge (p s : List Char) (k : Nat) :
    indexOfFrom p s k = -1 ∨ (k : Int) ≤ indexOfFrom p s k := by
  induction s generalizing k with
  | nil =>
    simp only [indexOfFrom]
    split
    · exact Or.inr (le_refl _)
    · exact Or.inl rfl
  | cons c s ih =>
    simp only [indexOfFrom]
    split
    · exact Or.inr (le_refl _)
    · rcases ih (k + 1) with h | h
      · exact Or.inl h
      · right
        push_cast at h
        omega

theorem indexOf_eq_zero (s p : String) : indexOf s p = 0 ↔ p.data <+: s.data := by
  unfold indexOf
  cases hs : s.data with
  | nil =>
    simp only [indexOfFrom]
    constructor
    · intro h
      split at h
      · next hp => exact List.isPrefixOf_iff_prefix.1 hp
      · omega
    · intro h
      rw [if_pos (List.isPrefixOf_iff_prefix.2 h)]
      rfl
  | cons c rest =>
    simp only [indexOfFrom]
    constructor
    · intro h
      split at h
      · next hp => exact List.isPrefixOf_iff_prefix.1 hp
      · have h' := indexOfFrom_ge p.data rest (0 + 1)
        generalize indexOfFrom p.data rest (0 + 1) = a at h h'
        push_cast at h'
        omega
    · intro h
      rw [if_pos (List.isPrefixOf_iff_prefix.2 h)]
      rfl

theorem preprocessStep_eq (acc : PreprocessedArguments) (t : String) :
    preprocessStep acc t =
      if isFilterToken t = true then .ok ⟨acc.filters ++ [patternOf t], acc.count⟩
      else if isCountToken t = true then .ok ⟨acc.filters, true⟩
      else .error (.forbidden t) := by
  have hcond : (indexOf t FILTER_ARGUMENT = 0 ∧ t.length > FILTER_ARGUMENT.length) ↔
      isFilterToken t = true := by
    rw [indexOf_eq_zero]
    simp [isFilterToken, FILTER_ARGUMENT]
  have hcount : t = COUNT_ARGUMENT ↔ isCountToken t = true := by
    simp [isCountToken, COUNT_ARGUMENT]
  unfold preprocessStep
  by_cases h1 : isFilterToken t = true
  · rw [if_pos (hcond.2 h1), if_pos h1]
    rfl
  · rw [if_neg (fun h => h1 (hcond.1 h)), if_neg h1]
    by_cases h2 : isCountToken t = true
    · rw [if_pos (hcount.2 h2), if_pos h2]
    · rw [if_neg (fun h => h2 (hcount.1 h)), if_neg h2]

theorem not_filter_of_count {t : String} (h : isCountToken t = true) :
    isFilterToken t = false := by
  simp only [isCountToken, decide_eq_true_eq] at h
  subst h
  decide

/-- The reduce of `preprocessArguments` from any accumulator: the first token
that is not recognized is reported, and without any such token the patterns are
appended in order and the count flag is raised by `--count`. -/
theorem reduceE_preprocessStep (args : List String) (acc : PreprocessedArguments) :
    reduceE preprocessStep args acc =
      match args.find? (fun t => !validToken t) with
      | some t => .error (.forbidden t)
      | none => .ok ⟨acc.filters ++ patternsOf args, acc.count || decide ("--count" ∈ args)⟩ := by
  induction args generalizing acc with
  | nil => simp [reduceE, patternsOf]
  | cons t rest ih =>
    simp only [reduceE, preprocessStep_eq, List.find?_cons]
    by_cases h1 : isFilterToken t = true
    · have hv : validToken t = true := by simp [validToken, h1]
      have hc : t ≠ "--count" := by
        intro e
        have := not_filter_of_count (t := t) (by simp [isCountToken, e])
        rw [h1] at this
        cases this
      have hc' : ¬ "--count" = t := fun e => hc e.symm
      simp only [h1, if_true, hv, Bool.not_true, ih]
      cases rest.find? (fun t => !validToken t) with
      | some u => rfl
      | none =>
        simp [patternsOf, List.filter_cons, h1, hc']
    · by_cases h2 : isCountToken t = true
      · have hv : validToken t = true := by simp [validToken, h2]
        have hc : t = "--count" := by simpa [isCountToken] using h2
        simp only [h1, if_false, h2, if_true, hv, Bool.not_true, ih]
        cases rest.find? (fun t => !validToken t) with
        | some u => rfl
        | none =>
          subst hc
          simp [patternsOf, List.filter_cons, h1]
      · have hv : validToken t = false := by
          simp only [Bool.not_eq_true] at h1 h2
          simp [validToken, h1, h2]
        simp [h1, h2, hv]

theorem preprocessArguments_eq (args : List String) :
    preprocessArguments args =
      match args.find? (fun t => !validToken t) with
      | some t => .error (.forbidden t)
      | none => .ok ⟨patternsOf args, decide ("--count" ∈ args)⟩ := by
  unfold preprocessArguments
  rw [reduceE_preprocessStep]
  cases args.find? (fun t => !validToken t) <;> simp

theorem preprocessArguments_valid {args : List String}
    (h : ∀ t ∈ args, validToken t = true) :
    preprocessArguments args = .ok ⟨patternsOf args, decide ("--count" ∈ args)⟩ := by
  rw [preprocessArguments_eq]
  have : args.find? (fun t => !validToken t) = none := by
    rw [List.find?_eq_none]
    intro t ht
    simp [h t ht]
  rw [this]

theorem preprocessArguments_invalid {args : List String}
    (h : ∃ t ∈ args, validToken t = false) :
    ∃ t ∈ args, validToken t = false ∧ preprocessArguments args = .error (.forbidden t) := by
  rw [preprocessArguments_eq]
  cases hf : args.find? (fun t => !validToken t) with
  | none =>
    rw [List.find?_eq_none] at hf
    obtain ⟨t, ht, hv⟩ := h
    have := hf t ht
    simp [hv] at this
  | some t =>
    have hmem := List.mem_of_find?_eq_some hf
    have hp := List.find?_some hf
    exact ⟨t, hmem, by simpa using hp, rfl⟩

theorem patternOf_append (p : String) : patternOf ("--filter=" ++ p) = p := by
  unfold patternOf
  apply String.ext
  simp only [String.data_append]
  exact List.drop_left' rfl

theorem isFilterToken_append {p : String} (hp : p ≠ "") :
    isFilterToken ("--filter=" ++ p) = true := by
  have hdata : p.data ≠ [] := fun h => hp (String.ext h)
  simp only [isFilterToken, String.data_append, Bool.and_eq_true, decide_eq_true_eq,
    String.length_append]
  refine ⟨List.prefix_append _ _, ?_⟩
  have : 0 < p.length := List.length_pos.2 hdata
  omega

theorem filterToken_split {t : String} (h : isFilterToken t = true) :
    "--filter=" ++ patternOf t = t := by
  simp only [isFilterToken, Bool.and_eq_true, decide_eq_true_eq] at h
  obtain ⟨rest, hrest⟩ := h.1
  apply String.ext
  simp only [patternOf, String.data_append, ← hrest]
  congr 1

theorem patternsOf_map_append {P : List String} (hP : ∀ p ∈ P, p ≠ "") :
    patternsOf (P.map (fun p => "--filter=" ++ p)) = P := by
  induction P with
  | nil => rfl
  | cons p rest ih =>
    have hrest := ih (fun q hq => hP q (List.mem_cons_of_mem _ hq))
    simp only [patternsOf] at hrest
    simp only [patternsOf, List.map_cons, List.filter_cons,
      isFilterToken_append (hP p (List.mem_cons_self _ _)), if_true, patternOf_append, hrest]

/-! ## The matching test, in closed form -/

theorem matchesAll_eq (P : List String) (c : Node) :
    matchesAll P c =
      match getField c.fields "name" with
      | .str _ => .ok (nameContainsAll P c)
      | .array _ => .ok P.isEmpty
      | _ => if P.isEmpty = true then .ok true else .error .typeError := by
  cases hname : getField c.fields "name" with
  | str s => exact matchesAll_of_name hname
  | array items =>
    have hp : ∀ p ∈ P, (nameIndexOf c p).map (fun i => decide (i = -1)) = .ok true := by
      intro p _
      simp only [nameIndexOf, hname]
      rfl
    simp only [matchesAll, filterE_pure P hp]
    cases P <;> simp
  | _ =>
    cases P with
    | nil => rfl
    | cons p P => simp [matchesAll, filterE, nameIndexOf, hname, Except.map]

theorem matchesAll_same_set {P P' : List String}
    (h : ∀ p ∈ P, p ∈ P') (h' : ∀ p ∈ P', p ∈ P) (c : Node) :
    matchesAll P c = matchesAll P' c := by
  have hempty : P.isEmpty = P'.isEmpty := by
    cases P with
    | nil =>
      cases P' with
      | nil => rfl
      | cons q Q => exact absurd (h' q (List.mem_cons_self _ _)) (List.not_mem_nil _)
    | cons p Q =>
      cases P' with
      | nil => exact absurd (h p (List.mem_cons_self _ _)) (List.not_mem_nil _)
      | cons q Q' => rfl
  have hall : nameContainsAll P c = nameContainsAll P' c := by
    simp only [nameContainsAll]
    rw [Bool.eq_iff_iff]
    simp only [List.all_eq_true]
    exact ⟨fun hP p hp => hP p (h' p hp), fun hP p hp => hP p (h p hp)⟩
  rw [matchesAll_eq P c, matchesAll_eq P' c, hempty, hall]

theorem matchesAll_error {P : List String} {c : Node} {e : Error}
    (h : matchesAll P c = .error e) : e = .typeError := by
  rw [matchesAll_eq] at h
  split at h
  · cases h
  · cases h
  · split at h
    · cases h
    · cases h
      rfl

theorem filterE_error {α : Type} {p : α → Except Error Bool} {xs : List α} {e : Error}
    (h : filterE p xs = .error e) : ∃ x ∈ xs, p x = .error e := by
  induction xs with
  | nil => cases h
  | cons x rest ih =>
    simp only [filterE] at h
    cases hx : p x with
    | error e' =>
      simp only [hx, Except.error.injEq] at h
      subst h
      exact ⟨x, List.mem_cons_self _ _, hx⟩
    | ok b =>
      cases hr : filterE p rest with
      | error e' =>
        simp only [hx, hr, Except.error.injEq] at h
        subst h
        obtain ⟨y, hy, hpy⟩ := ih hr
        exact ⟨y, List.mem_cons_of_mem _ hy, hpy⟩
      | ok zs => simp [hx, hr] at h

/-! ## The filter depends on the patterns through the matching test only -/

mutual
theorem rebuildItems_congr {P P' : List String} (K : String)
    (h : matchesAll P = matchesAll P') :
    ∀ T : List Node, rebuildItems P K T = rebuildItems P' K T
  | [] => by simp [rebuildItems]
  | n :: rest => by
    simp only [rebuildItems, rebuildItem_congr K h n, rebuildItems_congr K h rest]
theorem rebuildItem_congr {P P' : List String} (K : String)
    (h : matchesAll P = matchesAll P') :
    ∀ n : Node, rebuildItem P K n = rebuildItem P' K n
  | .mk fs => by
    simp only [rebuildItem, rebuildKeys_congr K h fs []]
theorem rebuildKeys_congr {P P' : List String} (K : String)
    (h : matchesAll P = matchesAll P') :
    ∀ (fs cur : Fields), rebuildKeys P K fs cur = rebuildKeys P' K fs cur
  | [], cur => by simp [rebuildKeys]
  | (k, .array items) :: rest, cur => by
    simp only [rebuildKeys, h, rebuildItems_congr K h items]
    split
    · cases filterE (matchesAll P') items with
      | error e => rfl
      | ok kept => exact rebuildKeys_congr K h rest _
    · cases rebuildItems P' K items with
      | error e => rfl
      | ok rebuilt => exact rebuildKeys_congr K h rest _
  | (k, .str s) :: rest, cur => by
    simp only [rebuildKeys]
    exact rebuildKeys_congr K h rest _
  | (k, .num n) :: rest, cur => by
    simp only [rebuildKeys]
    exact rebuildKeys_congr K h rest _
  | (k, .bool b) :: rest, cur => by
    simp only [rebuildKeys]
    exact rebuildKeys_congr K h rest _
  | (k, .null) :: rest, cur => by
    simp only [rebuildKeys]
    exact rebuildKeys_congr K h rest _
  | (k, .undefined) :: rest, cur => by
    simp only [rebuildKeys]
    exact rebuildKeys_congr K h rest _
end

theorem filterArray_same_set {P P' : List String}
    (h : ∀ p ∈ P, p ∈ P') (h' : ∀ p ∈ P', p ∈ P) (T : List Node) (K : Option String) :
    filterArray T P K = filterArray T P' K := by
  cases K with
  | none => rfl
  | some K =>
    simp only [filterArray,
      rebuildItems_congr K (funext (matchesAll_same_set h h')) T]

/-! ## Exceptions of the filter -/

mutual
theorem rebuildItems_error (P : List String) (K : String) :
    ∀ (T : List Node) (e : Error), rebuildItems P K T = .error e → e = .typeError
  | [], e, h => by simp [rebuildItems] at h
  | n :: rest, e, h => by
    simp only [rebuildItems] at h
    cases hn : rebuildItem P K n with
    | error e' =>
      simp only [hn, Except.error.injEq] at h
      subst h
      exact rebuildItem_error P K n _ hn
    | ok m =>
      cases hr : rebuildItems P K rest with
      | error e' =>
        simp only [hn, hr, Except.error.injEq] at h
        subst h
        exact rebuildItems_error P K rest _ hr
      | ok ms => simp [hn, hr] at h
theorem rebuildItem_error (P : List String) (K : String) :
    ∀ (n : Node) (e : Error), rebuildItem P K n = .error e → e = .typeError
  | .mk fs, e, h => by
    simp only [rebuildItem] at h
    cases hf : rebuildKeys P K fs [] with
    | error e' =>
      simp only [hf, Except.error.injEq] at h
      subst h
      exact rebuildKeys_error P K fs [] _ hf
    | ok out => simp [hf] at h
theorem rebuildKeys_error (P : List String) (K : String) :
    ∀ (fs cur : Fields) (e : Error), rebuildKeys P K fs cur = .error e → e = .typeError
  | [], cur, e, h => by simp [rebuildKeys] at h
  | (k, .array items) :: rest, cur, e, h => by
    simp only [rebuildKeys] at h
    split at h
    · cases hf : filterE (matchesAll P) items with
      | error e' =>
        simp only [hf, Except.error.injEq] at h
        subst h
        obtain ⟨c, _, hc⟩ := filterE_error hf
        exact matchesAll_error hc
      | ok kept =>
        simp only [hf] at h
        exact rebuildKeys_error P K rest _ e h
    · cases hf : rebuildItems P K items with
      | error e' =>
        simp only [hf, Except.error.injEq] at h
        subst h
        exact rebuildItems_error P K items _ hf
      | ok rebuilt =>
        simp only [hf] at h
        exact rebuildKeys_error P K rest _ e h
  | (k, .str s) :: rest, cur, e, h => by
    simp only [rebuildKeys] at h
    exact rebuildKeys_error P K rest _ e h
  | (k, .num n) :: rest, cur, e, h => by
    simp only [rebuildKeys] at h
    exact rebuildKeys_error P K rest _ e h
  | (k, .bool b) :: rest, cur, e, h => by
    simp only [rebuildKeys] at h
    exact rebuildKeys_error P K rest _ e h
  | (k, .null) :: rest, cur, e, h => by
    simp only [rebuildKeys] at h
    exact rebuildKeys_error P K rest _ e h
  | (k, .undefined) :: rest, cur, e, h => by
    simp only [rebuildKeys] at h
    exact rebuildKeys_error P K rest _ e h
end

/-- With a defined key the only exception of the filter is the `TypeError` of a
child without a searchable name. -/
theorem filterArray_error {T : List Node} {P : List String} {K : String} {e : Error}
    (h : filterArray T P (some K) = .error e) : e = .typeError := by
  simp only [filterArray] at h
  cases hr : rebuildItems P K T with
  | error e' =>
    simp only [hr, Except.error.injEq] at h
    subst h
    exact rebuildItems_error P K T _ hr
  | ok ms => simp [hr] at h

/-! ## A tree without any match is filtered to nothing -/

theorem noMatchTree_iff (P : List String) (K : String) (T : List Node) :
    noMatchTree P K T = true ↔
      ∀ n ∈ T,
        (∀ items, (K, Value.array items) ∈ n.fields →
          ∀ c ∈ items, nameContainsAll P c = false) ∧
        ∀ k xs, (k, Value.array xs) ∈ n.fields → noMatchTree P K xs = true := by
  unfold noMatchTree
  rw [everyNode_iff]
  constructor
  · intro h n hn
    refine ⟨?_, fun k xs hmem => (h n hn).2 k xs hmem rfl⟩
    intro items hmem c hc
    have := (h n hn).1
    simp only [List.all_eq_true] at this
    have := this _ hmem
    simp only [ne_eq, not_true_eq_false, decide_False, Bool.false_or, List.all_eq_true,
      Bool.not_eq_true'] at this
    exact this c hc
  · intro h n hn
    refine ⟨?_, fun k xs hmem _ => (h n hn).2 k xs hmem⟩
    simp only [List.all_eq_true]
    rintro ⟨k, v⟩ hmem
    cases v with
    | array items =>
      by_cases hk : k = K
      · subst hk
        simp only [ne_eq, not_true_eq_false, decide_False, Bool.false_or, List.all_eq_true,
          Bool.not_eq_true']
        exact (h n hn).1 items hmem
      · simp [hk]
    | _ => rfl

theorem filterArray_no_match (P : List String) (K : String) :
    ∀ T, wfTree T = true → namedTree K T = true → noMatchTree P K T = true →
      filterArray T P (some K) = .ok [] := by
  apply tree_induction
  intro T ih hwf hnamed hno
  have hkeys : ∀ n ∈ T, distinctKeys n = true := fun n hn => wfTree_distinct hwf hn
  have hform : ∀ n ∈ T, rebuiltForm P K n = .ok (Node.mk (n.fields.map (fun kv =>
      match kv.2 with
      | .array _ => (kv.1, Value.array [])
      | _ => kv))) := by
    intro n hn
    simp only [rebuiltForm]
    rw [mapE_pure n.fields (g := fun kv =>
      match kv.2 with
      | .array _ => (kv.1, Value.array [])
      | _ => kv)]
    · rfl
    · rintro ⟨k, v⟩ hmem
      cases v with
      | array items =>
        simp only [rebuiltField]
        split
        · next hk =>
          subst hk
          have hnc := namedChildren_elim (((namedTree_iff k T).1 hnamed n hn).1) hmem
          rw [filterE_pure items (fun c hc => matchesAll_of_hasStringName (hnc c hc))]
          have : items.filter (nameContainsAll P) = [] := by
            rw [List.filter_eq_nil_iff]
            intro c hc
            simp [((noMatchTree_iff P k T).1 hno n hn).1 items hmem c hc]
          rw [this]
          rfl
        · rw [ih n hn k items hmem (wfTree_sub hwf hn hmem)
            (((namedTree_iff K T).1 hnamed n hn).2 k items hmem)
            (((noMatchTree_iff P K T).1 hno n hn).2 k items hmem)]
          rfl
      | _ => rfl
  rw [filterArray_of_rebuiltForm hkeys hform]
  have : T.filter (fun n => hasNonEmptyArray (Node.mk (n.fields.map (fun kv =>
      match kv.2 with
      | .array _ => (kv.1, Value.array [])
      | _ => kv)))) = [] := by
    rw [List.filter_eq_nil_iff]
    intro n _
    simp only [hasNonEmptyArray, Node.fields, List.any_eq_true, List.mem_map, not_exists,
      not_and, Bool.not_eq_true]
    rintro kv' ⟨⟨k, v⟩, _, rfl⟩
    cases v <;> rfl
  rw [this]
  rfl

/-! ## The pipeline -/

theorem processArray_of_valid {args : List String} (h : ∀ t ∈ args, validToken t = true)
    (T : List Node) (K : Option String) :
    processArray T args K =
      match (if (patternsOf args).length > 0 then filterArray T (patternsOf args) K
          else .ok T) with
      | .error e => .error e
      | .ok filteredArray =>
        .ok (if decide ("--count" ∈ args) = true then countArray filteredArray
          else filteredArray) := by
  simp only [processArray, preprocessArguments_valid h]

theorem patternsOf_eq_nil {args : List String} :
    patternsOf args = [] ↔ ∀ t ∈ args, isFilterToken t = false := by
  simp [patternsOf, List.filter_eq_nil_iff]

/-! ## The first token that is not recognized -/

theorem find_first_invalid {pre post : List String} {t : String}
    (hpre : ∀ u ∈ pre, validToken u = true) (ht : validToken t = false) :
    (pre ++ t :: post).find? (fun u => !validToken u) = some t := by
  rw [List.find?_eq_some]
  refine ⟨by simp [ht], pre, post, rfl, ?_⟩
  intro u hu
  simp [hpre u hu]

theorem preprocessArguments_first {pre post : List String} {t : String}
    (hpre : ∀ u ∈ pre, validToken u = true) (ht : validToken t = false) :
    preprocessArguments (pre ++ t :: post) = .error (.forbidden t) := by
  rw [preprocessArguments_eq, find_first_invalid hpre ht]

theorem preprocessArguments_error_split {args : List String} {e : Error}
    (h : preprocessArguments args = .error e) :
    ∃ pre t post, args = pre ++ t :: post ∧ (∀ u ∈ pre, validToken u = true) ∧
      validToken t = false ∧ e = .forbidden t := by
  rw [preprocessArguments_eq] at h
  cases hf : args.find? (fun u => !validToken u) with
  | none =>
    rw [hf] at h
    cases h
  | some t =>
    rw [hf] at h
    cases h
    obtain ⟨ht, pre, post, hsplit, hpre⟩ := List.find?_eq_some.1 hf
    refine ⟨pre, t, post, hsplit, ?_, by simpa using ht, rfl⟩
    intro u hu
    simpa using hpre u hu

/-! ## The filter without pattern returns -/

theorem filterArray_nil_returns (K : String) :
    ∀ T, wfTree T = true → ∃ R, filterArray T [] (some K) = .ok R := by
  apply tree_induction
  intro T ih hwf
  rw [filterArray_eq T [] K (fun n hn => wfTree_distinct hwf hn)]
  have hms : ∃ ms, mapE (rebuiltForm [] K) T = .ok ms := by
    apply mapE_returns
    intro n hn
    have hfs : ∃ fs, mapE (rebuiltField [] K) n.fields = .ok fs := by
      apply mapE_returns
      rintro ⟨k, v⟩ hmem
      cases v with
      | array items =>
        simp only [rebuiltField]
        split
        · rw [filterE_matchesAll_nil]
          exact ⟨_, rfl⟩
        · obtain ⟨sub, hsub⟩ := ih n hn k items hmem (wfTree_sub hwf hn hmem)
          rw [hsub]
          exact ⟨_, rfl⟩
      | _ => exact ⟨_, rfl⟩
    obtain ⟨fs, hfs⟩ := hfs
    exact ⟨.mk fs, by simp [rebuiltForm, hfs, Except.map]⟩
  obtain ⟨ms, hms⟩ := hms
  exact ⟨_, by rw [hms]; rfl⟩

/-! ## Filtering by two pattern lists in turn -/

theorem rebuiltField_scalar (P : List String) (K : String) {kv : String × Value}
    (h : kv.2.isArray = false) : rebuiltField P K kv = .ok kv := by
  obtain ⟨k, v⟩ := kv
  cases v with
  | array items => simp [Value.isArray] at h
  | _ => rfl

theorem rebuiltField_target {P : List String} {K : String} {items : List Node}
    (hnames : ∀ c ∈ items, hasStringName c = true) :
    rebuiltField P K (K, .array items) =
      .ok (K, .array (items.filter (nameContainsAll P))) := by
  simp only [rebuiltField, if_true,
    filterE_pure items (fun c hc => matchesAll_of_hasStringName (hnames c hc))]
  rfl

theorem rebuiltField_other {P : List String} {K k : String} {items sub : List Node}
    (hk : k ≠ K) (h : filterArray items P (some K) = .ok sub) :
    rebuiltField P K (k, .array items) = .ok (k, .array sub) := by
  simp only [rebuiltField, if_neg hk, h]
  rfl

theorem nameContainsAll_append (P Q : List String) (c : Node) :
    nameContainsAll (P ++ Q) c = (nameContainsAll P c && nameContainsAll Q c) := by
  simp [nameContainsAll, List.all_append]

theorem hasNonEmptyArray_cons (kv : String × Value) (fs : Fields) :
    hasNonEmptyArray (.mk (kv :: fs)) =
      (hasNonEmptyArray (.mk [kv]) || hasNonEmptyArray (.mk fs)) := by
  simp [hasNonEmptyArray, Node.fields, List.any_cons]

theorem hasNonEmptyArray_single_array (k : String) (items : List Node) :
    hasNonEmptyArray (.mk [(k, .array items)]) = !items.isEmpty := by
  cases items <;> simp [hasNonEmptyArray, Node.fields]

theorem filterArray_nil_tree (P : List String) (K : String) :
    filterArray [] P (some K) = .ok [] := by
  simp [filterArray, rebuildItems]

theorem compose_fields {P Q : List String} {K : String} {fs gs : Fields}
    (hall : List.Forall₂ (fun kv kv' => rebuiltField P K kv = .ok kv') fs gs)
    (hentry : ∀ kv ∈ fs, ∀ kv', rebuiltField P K kv = .ok kv' →
      ∃ kv'', rebuiltField (P ++ Q) K kv = .ok kv'' ∧ rebuiltField Q K kv' = .ok kv'' ∧
        (hasNonEmptyArray (.mk [kv'']) = true → hasNonEmptyArray (.mk [kv']) = true)) :
    ∃ hs, mapE (rebuiltField (P ++ Q) K) fs = .ok hs ∧ mapE (rebuiltField Q K) gs = .ok hs ∧
      (hasNonEmptyArray (.mk hs) = true → hasNonEmptyArray (.mk gs) = true) := by
  induction hall with
  | nil => exact ⟨[], rfl, rfl, fun h => h⟩
  | @cons kv kv' fs gs hr _ ih =>
    obtain ⟨hs, h1, h2, h3⟩ := ih (fun x hx => hentry x (List.mem_cons_of_mem _ hx))
    obtain ⟨kv'', e1, e2, e3⟩ := hentry kv (List.mem_cons_self _ _) kv' hr
    refine ⟨kv'' :: hs, by simp only [mapE, e1, h1], by simp only [mapE, e2, h2], ?_⟩
    rw [hasNonEmptyArray_cons kv'' hs, hasNonEmptyArray_cons kv' gs]
    simp only [Bool.or_eq_true]
    rintro (h | h)
    · exact Or.inl (e3 h)
    · exact Or.inr (h3 h)

theorem compose_items {P Q : List String} {K : String} {T ms : List Node}
    (hall : List.Forall₂ (fun n m => rebuiltForm P K n = .ok m) T ms)
    (hnode : ∀ n ∈ T, ∀ m, rebuiltForm P K n = .ok m →
      ∃ m', rebuiltForm (P ++ Q) K n = .ok m' ∧ rebuiltForm Q K m = .ok m' ∧
        (hasNonEmptyArray m' = true → hasNonEmptyArray m = true)) :
    ∃ ms' ms'', mapE (rebuiltForm (P ++ Q) K) T = .ok ms' ∧
      mapE (rebuiltForm Q K) (ms.filter hasNonEmptyArray) = .ok ms'' ∧
      ms''.filter hasNonEmptyArray = ms'.filter hasNonEmptyArray := by
  induction hall with
  | nil => exact ⟨[], [], rfl, rfl, rfl⟩
  | @cons n m T ms hr _ ih =>
    obtain ⟨ms', ms'', h1, h2, h3⟩ := ih (fun x hx => hnode x (List.mem_cons_of_mem _ hx))
    obtain ⟨m', e1, e2, e3⟩ := hnode n (List.mem_cons_self _ _) m hr
    cases hm : hasNonEmptyArray m with
    | true =>
      refine ⟨m' :: ms', m' :: ms'', by simp only [mapE, e1, h1], ?_, ?_⟩
      · simp only [List.filter_cons, hm, if_true, mapE, e2, h2]
      · simp only [List.filter_cons, h3]
    | false =>
      have hm' : hasNonEmptyArray m' = false := by
        cases h : hasNonEmptyArray m' with
        | false => rfl
        | true =>
          rw [e3 h] at hm
          cases hm
      refine ⟨m' :: ms', ms'', by simp only [mapE, e1, h1], ?_, ?_⟩
      · simp only [List.filter_cons, hm, Bool.false_eq_true, if_false, h2]
      · simp only [List.filter_cons, hm', Bool.false_eq_true, if_false, h3]

theorem filterArray_compose_aux (P Q : List String) (K : String) :
    ∀ T, wfTree T = true → namedTree K T = true →
      ∀ R, filterArray T P (some K) = .ok R →
        ∃ S, filterArray T (P ++ Q) (some K) = .ok S ∧ filterArray R Q (some K) = .ok S := by
  apply tree_induction
  intro T ih hwf hnamed R hR
  have hkeys : ∀ n ∈ T, distinctKeys n = true := fun n hn => wfTree_distinct hwf hn
  obtain ⟨ms, hms, rfl⟩ := filterArray_ok hkeys hR
  have hkeysR : ∀ m ∈ ms.filter hasNonEmptyArray, distinctKeys m = true := by
    intro m hm
    obtain ⟨n, hn, hnm⟩ := mapE_mem hms (List.mem_filter.1 hm).1
    exact rebuiltForm_distinct hnm (hkeys n hn)
  have hnode : ∀ n ∈ T, ∀ m, rebuiltForm P K n = .ok m →
      ∃ m', rebuiltForm (P ++ Q) K n = .ok m' ∧ rebuiltForm Q K m = .ok m' ∧
        (hasNonEmptyArray m' = true → hasNonEmptyArray m = true) := by
    intro n hn m hnm
    have hfields := mapE_ok_iff.1 (rebuiltForm_ok hnm)
    obtain ⟨hs, h1, h2, h3⟩ := compose_fields (Q := Q) hfields (by
      intro kv hkv kv' hr
      rcases rebuiltField_cases hr with ⟨hsc, rfl⟩ | ⟨items, kept, rfl, rfl, hf⟩ |
        ⟨k, items, sub, hk, rfl, rfl, hf⟩
      · exact ⟨kv', rebuiltField_scalar _ K hsc, rebuiltField_scalar _ K hsc, fun h => h⟩
      · have hnames := namedChildren_elim (((namedTree_iff K T).1 hnamed n hn).1) hkv
        have hkept : kept = items.filter (nameContainsAll P) := by
          rw [filterE_pure items (fun c hc => matchesAll_of_hasStringName (hnames c hc))] at hf
          cases hf
          rfl
        have hnames' : ∀ c ∈ kept, hasStringName c = true := by
          intro c hc
          rw [hkept] at hc
          exact hnames c (List.mem_filter.1 hc).1
        have hboth : kept.filter (nameContainsAll Q) =
            items.filter (nameContainsAll (P ++ Q)) := by
          rw [hkept, List.filter_filter]
          apply List.filter_congr
          intro c _
          rw [nameContainsAll_append, Bool.and_comm]
        refine ⟨(K, .array (items.filter (nameContainsAll (P ++ Q)))),
          rebuiltField_target hnames, ?_, ?_⟩
        · rw [rebuiltField_target hnames', hboth]
        · rw [hasNonEmptyArray_single_array, hasNonEmptyArray_single_array, ← hboth]
          cases kept with
          | nil => simp
          | cons c cs => simp
      · obtain ⟨S, hS1, hS2⟩ := ih n hn k items hkv (wfTree_sub hwf hn hkv)
          (((namedTree_iff K T).1 hnamed n hn).2 k items hkv) sub hf
        refine ⟨(k, .array S), rebuiltField_other hk hS1, rebuiltField_other hk hS2, ?_⟩
        rw [hasNonEmptyArray_single_array, hasNonEmptyArray_single_array]
        cases sub with
        | nil =>
          rw [filterArray_nil_tree] at hS2
          cases hS2
          simp
        | cons c cs => simp)
    obtain ⟨gs⟩ := m
    obtain ⟨fs⟩ := n
    simp only [Node.fields] at h1 h2 h3
    exact ⟨.mk hs, by simp [rebuiltForm, Node.fields, h1, Except.map],
      by simp [rebuiltForm, Node.fields, h2, Except.map], h3⟩
  obtain ⟨ms', ms'', h1, h2, h3⟩ := compose_items (mapE_ok_iff.1 hms) hnode
  refine ⟨ms'.filter hasNonEmptyArray, ?_, ?_⟩
  · rw [filterArray_eq T (P ++ Q) K hkeys, h1]
    rfl
  · rw [filterArray_eq _ Q K hkeysR, h2]
    simp only [Except.map, h3]

theorem processArray_filters {T : List Node} {K : String} {P : List String}
    (hP : P ≠ []) (hne : ∀ p ∈ P, p ≠ "") :
    processArray T (P.map (fun p => "--filter=" ++ p)) (some K) = filterArray T P (some K) := by
  have hvalid : ∀ t ∈ P.map (fun p => "--filter=" ++ p), validToken t = true := by
    intro t ht
    obtain ⟨p, hp, rfl⟩ := List.mem_map.1 ht
    simp [validToken, isFilterToken_append (hne p hp)]
  have hcount : "--count" ∉ P.map (fun p => "--filter=" ++ p) := by
    intro hmem
    obtain ⟨p, hp, he⟩ := List.mem_map.1 hmem
    have h1 := isFilterToken_append (hne p hp)
    rw [he] at h1
    revert h1
    decide
  rw [processArray_of_valid hvalid, patternsOf_map_append hne, if_pos (List.length_pos.2 hP)]
  cases filterArray T P (some K) with
  | error e => rfl
  | ok R => simp [hcount]

/-! ## `countArray` with its exception -/

theorem conversionThrows_nameOrEmpty (fs : Fields) :
    conversionThrows (nameOrEmpty fs) = conversionThrows (getField fs "name") := by
  unfold nameOrEmpty
  cases h : getField fs "name" with
  | array items => simp [truthy]
  | _ => split <;> rfl

theorem arrayKeys_ne_nil_of_throws {fs : Fields}
    (h : conversionThrows (getField fs "name") = true) : arrayKeys fs ≠ [] := by
  cases hget : getField fs "name" with
  | array items =>
    have hmem := getField_mem_of_array hget
    intro hnil
    have : "name" ∈ arrayKeys fs := by
      simp only [arrayKeys, keysOf, List.mem_map, List.mem_filter]
      exact ⟨_, ⟨hmem, rfl⟩, rfl⟩
    rw [hnil] at this
    cases this
  | _ => simp [hget, conversionThrows] at h

theorem arrayKeys_cons_array (k : String) (items : List Node) (rest : Fields) :
    arrayKeys ((k, .array items) :: rest) = k :: arrayKeys rest := by
  simp [arrayKeys, List.filter_cons, Value.isArray, keysOf]

theorem arrayKeys_cons_scalar (k : String) (v : Value) (rest : Fields)
    (hv : v.isArray = false) : arrayKeys ((k, v) :: rest) = arrayKeys rest := by
  simp [arrayKeys, List.filter_cons, hv]

theorem everyField_cons_array (p : Node → Bool) (k : String) (items : List Node)
    (rest : Fields) :
    everyField (fun _ => true) p ((k, .array items) :: rest) =
      (everyNode (fun _ => true) p items && everyField (fun _ => true) p rest) := by
  simp [everyField]

theorem everyField_cons_scalar (p : Node → Bool) (k : String) (v : Value) (rest : Fields)
    (hv : v.isArray = false) :
    everyField (fun _ => true) p ((k, v) :: rest) = everyField (fun _ => true) p rest := by
  cases v with
  | array items => simp [Value.isArray] at hv
  | _ => simp [everyField]

theorem countKeysE_cons_scalar (k : String) (v : Value) (rest cur : Fields)
    (hv : v.isArray = false) :
    countKeysE ((k, v) :: rest) cur = countKeysE rest (spread [(k, v)] cur) := by
  cases v with
  | array items => simp [Value.isArray] at hv
  | _ => simp only [countKeysE]

mutual
theorem countArrayE_eq_aux : ∀ T : List Node,
    countArrayE T =
      if templateSafe T = true then .ok (countArray T) else .error .typeError
  | [] => by simp [countArrayE, countArray, templateSafe, everyNode]
  | n :: rest => by
    have h1 := countItemE_eq_aux n
    have h2 := countArrayE_eq_aux rest
    simp only [countArrayE, h1, h2, templateSafe, everyNode, countArray, Bool.and_eq_true]
    by_cases hn : everyNodeIn (fun _ => true) nameConverts n = true
    · by_cases hr : everyNode (fun _ => true) nameConverts rest = true
      · simp [hn, hr, templateSafe]
      · simp [hn, hr, templateSafe]
    · simp [hn]
theorem countItemE_eq_aux : ∀ n : Node,
    countItemE n =
      if everyNodeIn (fun _ => true) nameConverts n = true then .ok (countItem n)
      else .error .typeError
  | .mk fs => by
    have h := countKeysE_eq_aux fs [("name", nameOrEmpty fs)] (isAcc_init _)
    have hname : getField [("name", nameOrEmpty fs)] "name" = nameOrEmpty fs := by
      simp [getField]
    rw [hname, conversionThrows_nameOrEmpty] at h
    simp only [countItemE, h, everyNodeIn, countItem, Bool.and_eq_true, nameConverts,
      Node.fields, Bool.not_eq_true']
    by_cases hc : conversionThrows (getField fs "name") = true
    · have hne := arrayKeys_ne_nil_of_throws hc
      simp [hc, hne]
    · simp only [Bool.not_eq_true] at hc
      by_cases hf : everyField (fun _ => true) nameConverts fs = true
      · simp [hc, hf, nameConverts]
      · simp [hc, hf, nameConverts]
theorem countKeysE_eq_aux : ∀ (fs cur : Fields), IsAcc cur →
    countKeysE fs cur =
      if (arrayKeys fs ≠ [] → conversionThrows (getField cur "name") = false) ∧
          everyField (fun _ => true) nameConverts fs = true
      then .ok (countKeys fs cur) else .error .typeError
  | [], cur, _ => by simp [countKeysE, countKeys, arrayKeys, keysOf, everyField]
  | (k, .array items) :: rest, cur, hcur => by
    have h1 := countArrayE_eq_aux items
    have hacc := isAcc_array hcur k (.array (countArray items))
      (suffixed (getField cur "name") items.length)
    have h2 := countKeysE_eq_aux rest _ hacc
    have hstr : conversionThrows (getField (setField (setField cur k
        (.array (countArray items))) "name" (suffixed (getField cur "name") items.length))
        "name") = false := by
      rw [getField_setField_same]
      rfl
    rw [hstr] at h2
    simp only [countKeysE, h1, suffixedE, arrayKeys_cons_array, everyField_cons_array,
      countKeys_cons_array, templateSafe]
    by_cases hs : everyNode (fun _ => true) nameConverts items = true
    · by_cases hc : conversionThrows (getField cur "name") = true
      · simp [hs, hc]
      · simp only [Bool.not_eq_true] at hc
        simp [hs, hc, h2]
    · simp [hs]
  | (k, .str s) :: rest, cur, hcur => by
    have h2 := countKeysE_eq_aux rest _ (isAcc_scalar hcur k (.str s))
    rw [getField_name_scalar hcur] at h2
    rw [countKeysE_cons_scalar k (.str s) rest cur rfl, h2,
      arrayKeys_cons_scalar k (.str s) rest rfl,
      everyField_cons_scalar nameConverts k (.str s) rest rfl,
      countKeys_cons_scalar k (.str s) rest cur rfl]
  | (k, .num n) :: rest, cur, hcur => by
    have h2 := countKeysE_eq_aux rest _ (isAcc_scalar hcur k (.num n))
    rw [getField_name_scalar hcur] at h2
    rw [countKeysE_cons_scalar k (.num n) rest cur rfl, h2,
      arrayKeys_cons_scalar k (.num n) rest rfl,
      everyField_cons_scalar nameConverts k (.num n) rest rfl,
      countKeys_cons_scalar k (.num n) rest cur rfl]
  | (k, .bool b) :: rest, cur, hcur => by
    have h2 := countKeysE_eq_aux rest _ (isAcc_scalar hcur k (.bool b))
    rw [getField_name_scalar hcur] at h2
    rw [countKeysE_cons_scalar k (.bool b) rest cur rfl, h2,
      arrayKeys_cons_scalar k (.bool b) rest rfl,
      everyField_cons_scalar nameConverts k (.bool b) rest rfl,
      countKeys_cons_scalar k (.bool b) rest cur rfl]
  | (k, .null) :: rest, cur, hcur => by
    have h2 := countKeysE_eq_aux rest _ (isAcc_scalar hcur k (.null))
    rw [getField_name_scalar hcur] at h2
    rw [countKeysE_cons_scalar k (.null) rest cur rfl, h2,
      arrayKeys_cons_scalar k (.null) rest rfl,
      everyField_cons_scalar nameConverts k (.null) rest rfl,
      countKeys_cons_scalar k (.null) rest cur rfl]
  | (k, .undefined) :: rest, cur, hcur => by
    have h2 := countKeysE_eq_aux rest _ (isAcc_scalar hcur k (.undefined))
    rw [getField_name_scalar hcur] at h2
    rw [countKeysE_cons_scalar k (.undefined) rest cur rfl, h2,
      arrayKeys_cons_scalar k (.undefined) rest rfl,
      everyField_cons_scalar nameConverts k (.undefined) rest rfl,
      countKeys_cons_scalar k (.undefined) rest cur rfl]
end

/-- The function `countArray` with its exception returns exactly on the trees
on which no template literal throws, and then the value `countArray`. -/
theorem countArrayE_eq (T : List Node) :
    countArrayE T =
      if templateSafe T = true then .ok (countArray T) else .error .typeError :=
  countArrayE_eq_aux T

/-! ## The filter keeps a tree convertible -/

theorem templateSafe_iff (T : List Node) :
    templateSafe T = true ↔
      ∀ n ∈ T, nameConverts n = true ∧
        ∀ k xs, (k, Value.array xs) ∈ n.fields → templateSafe xs = true := by
  unfold templateSafe
  rw [everyNode_iff]
  simp

theorem templateSafe_subset {xs ys : List Node} (h : templateSafe xs = true)
    (hsub : ∀ y ∈ ys, y ∈ xs) : templateSafe ys = true := by
  rw [templateSafe_iff] at h ⊢
  exact fun y hy => h y (hsub y hy)

theorem nameConverts_array {n : Node} {items : List Node}
    (hget : getField n.fields "name" = .array items) (h : nameConverts n = true) :
    ∀ x ∈ items, "toString" ∉ keysOf x.fields := by
  simp only [nameConverts, hget, conversionThrows, Bool.not_eq_true', List.any_eq_false,
    decide_eq_true_eq] at h
  exact h

theorem filterArray_templateSafe (P : List String) (K : String) :
    ∀ T, wfTree T = true → templateSafe T = true →
      ∀ R, filterArray T P (some K) = .ok R → templateSafe R = true := by
  apply tree_induction
  intro T ih hwf hsafe R hR
  have hkeys : ∀ n ∈ T, distinctKeys n = true := fun n hn => wfTree_distinct hwf hn
  rw [templateSafe_iff]
  intro m hm
  obtain ⟨_, n, hn, hnm⟩ := filterArray_mem hkeys hR hm
  have hnd : (keysOf n.fields).Nodup := by simpa [distinctKeys] using hkeys n hn
  have hnsafe := (templateSafe_iff T).1 hsafe n hn
  constructor
  · cases hget : getField m.fields "name" with
    | array ys =>
      simp only [nameConverts, hget, conversionThrows, Bool.not_eq_true', List.any_eq_false,
        decide_eq_true_eq]
      obtain ⟨kv, hkv, hr⟩ := mapE_mem (rebuiltForm_ok hnm) (getField_mem_of_array hget)
      rcases rebuiltField_cases hr with ⟨hsc, he⟩ | ⟨items, kept, rfl, he, hf⟩ |
        ⟨k, items, sub, _, rfl, he, hf⟩
      · rw [← he] at hsc
        simp [Value.isArray] at hsc
      · cases he
        have hitems := nameConverts_array (getField_of_mem hnd hkv) hnsafe.1
        intro y hy
        exact hitems y (filterE_mem hf hy).1
      · cases he
        have hitems := nameConverts_array (getField_of_mem hnd hkv) hnsafe.1
        intro y hy
        obtain ⟨_, x, hx, hxy⟩ := filterArray_mem
          (fun z hz => wfTree_distinct (wfTree_sub hwf hn hkv) hz) hf hy
        rw [rebuiltForm_keys hxy]
        exact hitems x hx
    | _ => simp [nameConverts, hget, conversionThrows]
  · intro k xs hmem
    obtain ⟨kv, hkv, hr⟩ := mapE_mem (rebuiltForm_ok hnm) hmem
    rcases rebuiltField_cases hr with ⟨hsc, he⟩ | ⟨items, kept, rfl, he, hf⟩ |
      ⟨k', items, sub, _, rfl, he, hf⟩
    · rw [← he] at hsc
      simp [Value.isArray] at hsc
    · cases he
      exact templateSafe_subset (hnsafe.2 _ items hkv) (fun y hy => (filterE_mem hf hy).1)
    · cases he
      exact ih n hn k items hkv (wfTree_sub hwf hn hkv) (hnsafe.2 k items hkv) xs hf

/-! ## The pipeline with the exception of `countArray` -/

theorem processArrayE_of_valid {args : List String} (h : ∀ t ∈ args, validToken t = true)
    (T : List Node) (K : Option String) :
    processArrayE T args K =
      match (if (patternsOf args).length > 0 then filterArray T (patternsOf args) K
          else .ok T) with
      | .error e => .error e
      | .ok filteredArray =>
        if decide ("--count" ∈ args) = true then countArrayE filteredArray
        else .ok filteredArray := by
  simp only [processArrayE, preprocessArguments_valid h]

/-- Whenever the pipeline with the exception returns, the pipeline of values
returns the same tree. -/
theorem processArray_of_processArrayE {T R : List Node} {args : List String}
    {K : Option String} (h : processArrayE T args K = .ok R) :
    processArray T args K = .ok R := by
  simp only [processArrayE] at h
  simp only [processArray]
  cases hp : preprocessArguments args with
  | error e => simp [hp] at h
  | ok pre =>
    simp only [hp] at h ⊢
    cases hf : (if pre.filters.length > 0 then filterArray T pre.filters K else .ok T) with
    | error e => simp [hf] at h
    | ok F =>
      simp only [hf] at h ⊢
      cases hc : pre.count with
      | false =>
        simp only [hc, Bool.false_eq_true, if_false] at h ⊢
        exact h
      | true =>
        simp only [hc, if_true] at h ⊢
        rw [countArrayE_eq] at h
        split at h
        · exact h
        · cases h

theorem processArrayE_returns {T : List Node} {K : String} {args : List String}
    (hwf : wfTree T = true) (hnamed : namedTree K T = true)
    (hsafe : templateSafe T = true) (hvalid : ∀ t ∈ args, validToken t = true) :
    ∃ R, processArrayE T args (some K) = .ok R := by
  rw [processArrayE_of_valid hvalid]
  have hcount : ∀ F, templateSafe F = true →
      ∃ R, (if decide ("--count" ∈ args) = true then countArrayE F else .ok F) = .ok R := by
    intro F hF
    split
    · rw [countArrayE_eq, if_pos hF]
      exact ⟨_, rfl⟩
    · exact ⟨_, rfl⟩
  by_cases hpos : (patternsOf args).length > 0
  · obtain ⟨F, hF⟩ := filterArray_returns (patternsOf args) K T hwf hnamed
    rw [if_pos hpos, hF]
    exact hcount F (filterArray_templateSafe _ K T hwf hsafe F hF)
  · rw [if_neg hpos]
    exact hcount T hsafe

theorem processArrayE_returns_no_filter {T : List Node} {key : Option String}
    {args : List String} (hsafe : templateSafe T = true)
    (hvalid : ∀ t ∈ args, validToken t = true)
    (hno : ∀ t ∈ args, isFilterToken t = false) :
    ∃ R, processArrayE T args key = .ok R := by
  rw [processArrayE_of_valid hvalid, patternsOf_eq_nil.2 hno]
  simp only [List.length_nil, gt_iff_lt, lt_self_iff_false, if_false]
  split
  · rw [countArrayE_eq, if_pos hsafe]
    exact ⟨_, rfl⟩
  · exact ⟨_, rfl⟩

/-! ## Claims on `filterArray` -/

/-- C1: filtering reaches a target field nested below non-target arrays.  For
every three-level tree regions, people, animals (objects with pairwise distinct
keys; the array-valued fields of a region all sit under `people`, those of a
person under `animals`; every animal carries a string name) and every pattern
list, `filterArray(T, P, 'animals')` returns, in original order, exactly the
regions that have at least one person with at least one animal whose name
contains every pattern; each such region keeps exactly its people that have such
an animal, and each such person keeps exactly its animals whose name contains
every pattern, all in original order. -/
theorem filterArray_three_levels (T : List Node) (P : List String)
    (hregion : ∀ r ∈ T, distinctKeys r = true ∧ onlyArrayField "people" r = true)
    (hperson : ∀ r ∈ T, ∀ p ∈ children "people" r,
      distinctKeys p = true ∧ onlyArrayField "animals" p = true)
    (hanimal : ∀ r ∈ T, ∀ p ∈ children "people" r, ∀ a ∈ children "animals" p,
      hasStringName a = true) :
    filterArray T P (some "animals") =
      .ok ((T.filter (fun r => (children "people" r).any (hasMatch P "animals"))).map
        (fun r => withField r "people"
          (((children "people" r).filter (hasMatch P "animals")).map
            (keepMatches P "animals")))) :=
  filterArray_two_levels (by decide) hregion hperson hanimal

/-- Two regions of the shape of `data.js` filtered by `Cat`: one region, one
person and one animal remain. -/
theorem filterArray_three_levels_witness :
    filterArray [region, otherRegion] ["Cat"] (some "animals") =
      .ok [.mk [("name", .str "Dillauti"),
        ("people", .array [.mk [("name", .str "Ann"),
          ("animals", .array [.mk [("name", .str "Cat")]])]])]] :=
  filterArray_three_levels [region, otherRegion] ["Cat"] (by decide) (by decide) (by decide)



/-- C2: AND / substring semantics at the target field.  For every sequence of
Nodes (objects with pairwise distinct keys) whose array-valued fields all sit
under the target field `K`, with children carrying a string name, and every
pattern list, `filterArray` returns, in input order, exactly the Nodes that have
at least one child whose name contains every pattern as a substring, each with
the array under `K` replaced by exactly the subsequence of those children. -/
theorem filterArray_and_semantics (T : List Node) (P : List String) (K : String)
    (hkeys : ∀ n ∈ T, distinctKeys n = true)
    (honly : ∀ n ∈ T, onlyArrayField K n = true)
    (hnames : ∀ n ∈ T, ∀ c ∈ children K n, hasStringName c = true) :
    filterArray T P (some K) =
      .ok ((T.filter (hasMatch P K)).map (keepMatches P K)) :=
  filterArray_level hkeys honly hnames

/-- The example of the specification:
`filter([{name:'Ann', animals:[{name:'Duck'},{name:'Cat'}]}], ['Duck'], 'animals')`. -/
theorem filterArray_and_semantics_witness :
    filterArray [ann] ["Duck"] (some "animals") =
      .ok [.mk [("name", .str "Ann"), ("animals", .array [.mk [("name", .str "Duck")]])]] :=
  filterArray_and_semantics [ann] ["Duck"] "animals" (by decide) (by decide) (by decide)


/-- C3: pruning rule of `filterArray`.  For every input sequence (of objects
with pairwise distinct keys), pattern list and defined key, the output is the
sequence of the rebuilt forms of the input Nodes (target-field arrays filtered by
the patterns, every other array filtered recursively) that have at least one
array-valued field with at least one element; the call throws exactly when a
rebuilt form does.  Consequently a Node without any array-valued field, and a
Node whose array-valued fields all sit under the target field and none of whose
(string-named) children matches all patterns, is removed from the output
entirely: the result is that of the input without this Node. -/
theorem filterArray_pruning_rule (T : List Node) (P : List String) (K : String)
    (hkeys : ∀ n ∈ T, distinctKeys n = true) :
    filterArray T P (some K) =
      (mapE (rebuiltForm P K) T).map (List.filter hasNonEmptyArray) ∧
    ∀ A n B, T = A ++ n :: B →
      ((∀ kv ∈ n.fields, kv.2.isArray = false) ∨
        (onlyArrayField K n = true ∧ (∀ c ∈ children K n, hasStringName c = true) ∧
          hasMatch P K n = false)) →
      filterArray T P (some K) = filterArray (A ++ B) P (some K) := by
  refine ⟨filterArray_eq T P K hkeys, ?_⟩
  rintro A n B rfl (hno | ⟨honly, hnames, hnone⟩)
  · obtain ⟨honly, hch⟩ := onlyArrayField_of_no_array (K := K) hno
    apply filterArray_drop hkeys honly
    · intro c hc
      rw [hch] at hc
      cases hc
    · simp [hasMatch, hch]
  · exact filterArray_drop hkeys honly hnames hnone

/-- A person whose only animal fails the pattern is removed: filtering Ann and
Bob by `Duck` gives the result of filtering Ann alone. -/
theorem filterArray_pruning_rule_witness :
    filterArray [ann, bob] ["Duck"] (some "animals") =
      filterArray [ann] ["Duck"] (some "animals") :=
  (filterArray_pruning_rule [ann, bob] ["Duck"] "animals" (by decide)).2 [ann] bob [] rfl
    (Or.inr ⟨by decide, by decide, by decide⟩)


/-- C4: idempotence of filtering.  For every well-formed tree, pattern list and
defined key, filtering the result of the filter again gives the result of the
filter (an exception of the first call being propagated); and when the children
of the arrays named `K` carry string names the filter returns a tree `R`, and
filtering `R` returns `R`. -/
theorem filterArray_idempotent (T : List Node) (P : List String) (K : String)
    (hwf : wfTree T = true) :
    (filterArray T P (some K)).bind (fun R => filterArray R P (some K)) =
      filterArray T P (some K) ∧
    (namedTree K T = true →
      ∃ R, filterArray T P (some K) = .ok R ∧ filterArray R P (some K) = .ok R) := by
  constructor
  · cases h : filterArray T P (some K) with
    | error e => rfl
    | ok R => exact filterArray_fixed P K T hwf R h
  · intro hnamed
    obtain ⟨R, hR⟩ := filterArray_returns P K T hwf hnamed
    exact ⟨R, hR, filterArray_fixed P K T hwf R hR⟩

/-- Filtering two regions by `Cat` twice is filtering them once. -/
theorem filterArray_idempotent_witness :
    (filterArray [region, otherRegion] ["Cat"] (some "animals")).bind
        (fun R => filterArray R ["Cat"] (some "animals")) =
      filterArray [region, otherRegion] ["Cat"] (some "animals") :=
  (filterArray_idempotent [region, otherRegion] ["Cat"] "animals" (by decide)).1


/-- C5: monotonicity of filtering.  For every well-formed tree, pattern list and
defined key, a result of `filterArray` is obtained from the input by deleting
Nodes only: at every level the output sequence is, in the same relative order,
the image of a subsequence of the input sequence; each output Node has the field
names, in order, and the scalar values of the input Node it comes from, and each
of its arrays is in turn such a subsequence of the corresponding input array.
The filter does return when the children of the arrays named `K` carry string
names. -/
theorem filterArray_monotone (T : List Node) (P : List String) (K : String)
    (hwf : wfTree T = true) :
    (∀ R, filterArray T P (some K) = .ok R → PrunedTree R T) ∧
    (namedTree K T = true → ∃ R, filterArray T P (some K) = .ok R) :=
  ⟨filterArray_pruned P K T hwf, filterArray_returns P K T hwf⟩

/-- The region that remains after filtering by `Cat` is pruned from the input. -/
theorem filterArray_monotone_witness :
    PrunedTree
      [.mk [("name", .str "Dillauti"),
        ("people", .array [.mk [("name", .str "Ann"),
          ("animals", .array [.mk [("name", .str "Cat")]])]])]]
      [region, otherRegion] :=
  (filterArray_monotone [region, otherRegion] ["Cat"] "animals" (by decide)).1 _ rfl


/-- C6, as stated, fails: with an empty pattern list a person without animals is
pruned, so the result is not the input. -/
theorem filterArray_nil_counterexample :
    filterArray [eve] [] (some "animals") ≠ .ok [eve] := by
  intro h
  have hrun : filterArray [eve] [] (some "animals") = .ok [] := rfl
  rw [hrun] at h
  cases h

/-- C6, amended: with an empty pattern list, `filterArray(T, [], K)` returns a
tree equal to `T` exactly when every Node visited by the filter (the Nodes of `T`
and, recursively, those of the arrays stored under a key other than `K`) has at
least one non-empty array-valued field; no name is read. -/
theorem filterArray_nil_patterns (T : List Node) (K : String) (hwf : wfTree T = true) :
    filterArray T [] (some K) = .ok T ↔ fullTree K T = true :=
  ⟨full_of_filterArray_nil K T hwf, filterArray_nil_of_full K T hwf⟩

/-- Two regions whose people all have animals pass unchanged. -/
theorem filterArray_nil_patterns_witness :
    filterArray [region, otherRegion] [] (some "animals") = .ok [region, otherRegion] :=
  (filterArray_nil_patterns [region, otherRegion] "animals" (by decide)).2 (by decide)


/-- C7, as stated, fails: a child kept in a target array is not filtered itself,
so the target array it carries keeps a child whose name lacks the pattern. -/
theorem filterArray_depth_counterexample :
    filterArray [kennel] ["Duck"] (some "animals") = .ok [kennel] ∧
    everyNode (fun _ => true) (targetChildrenMatch ["Duck"] "animals") [kennel] = false :=
  ⟨rfl, by decide⟩

/-- C7, amended: for every well-formed tree, pattern list and defined key, every
array found under a field named `K` in a result of `filterArray`, at any depth
reached through fields not named `K`, contains only children whose name contains
every pattern; the arrays inside the children of a `K`-named array are not
visited.  The filter does return when the children of the arrays named `K`
carry string names. -/
theorem filterArray_target_at_depth (T : List Node) (P : List String) (K : String)
    (hwf : wfTree T = true) :
    (∀ R, filterArray T P (some K) = .ok R →
      everyNode (fun k => decide (k ≠ K)) (targetChildrenMatch P K) R = true) ∧
    (namedTree K T = true → ∃ R, filterArray T P (some K) = .ok R) :=
  ⟨filterArray_target_match P K T hwf, filterArray_returns P K T hwf⟩

/-- In the regions filtered by `Cat`, every `animals` array holds cats only. -/
theorem filterArray_target_at_depth_witness :
    everyNode (fun k => decide (k ≠ "animals")) (targetChildrenMatch ["Cat"] "animals")
      [.mk [("name", .str "Dillauti"),
        ("people", .array [.mk [("name", .str "Ann"),
          ("animals", .array [.mk [("name", .str "Cat")]])]])]] = true :=
  (filterArray_target_at_depth [region, otherRegion] ["Cat"] "animals" (by decide)).1 _ rfl


/-! ## Claims on `countArray` -/

/-- C8: annotated name formula (functions.js).  For every well-formed tree and
every Node of it at every depth (reached by a path through array-valued fields
other than `name`), the Node at the same path of the output of `countArray` has
for name the input name (the empty string when it is absent or falsy) followed
by exactly one segment `" [N]"` per array-valued field of the Node, in field
order, `N` being the length of that array; wherever the key `name` sits among the
fields, and without any suffix when the Node has no array-valued field. -/
theorem countArray_name_formula (T : List Node) (i : Nat) (path : List (String × Nat))
    (n : Node) (hwf : wfTree T = true) (hpath : ∀ kj ∈ path, kj.1 ≠ "name")
    (hn : nodeAt T i path = some n) :
    (nodeAt (countArray T) i path).map (fun m => getField m.fields "name") =
      some (annotatedName n) := by
  rw [nodeAt_countArray path T i n hwf hpath hn]
  simp only [Option.map_some', countItem_name]

/-- The first person of `data.js`, whose `animals` come before `name`, inside a
region: the name gains the count of the six animals. -/
theorem countArray_name_formula_witness :
    (nodeAt (countArray [region]) 0 [("people", 0)]).map (fun m => getField m.fields "name") =
      some (.str "Winifred Graham [6]") :=
  countArray_name_formula [region] 0 [("people", 0)] winifred (by decide) (by decide) rfl


/-- C9, at the first person of `data.js`: `countArray` of functions_readable.js
returns the name without the count, because the entry `name`, read after
`animals`, overwrites the suffixed name; `countArray` of functions.js returns
`Winifred Graham [6]`. -/
theorem countArrayReadable_loses_count :
    (countArrayReadable [winifred]).map (fun m => getField m.fields "name") =
      [.str "Winifred Graham"] ∧
    (countArray [winifred]).map (fun m => getField m.fields "name") =
      [.str "Winifred Graham [6]"] :=
  ⟨rfl, rfl⟩


/-- C10, as stated, fails: for the first person of `data.js` the output has
`name` before `animals`, the input `animals` before `name`. -/
theorem countArray_order_counterexample :
    (countArray [winifred]).map (fun m => keysOf m.fields) ≠
      [winifred].map (fun n => keysOf n.fields) := by
  decide

/-- C10, amended: for every well-formed tree and every Node of it, at any depth,
that carries a scalar `name`, the output Node has the field names of the input
Node, each once, in this order: the scalar fields, `name` among them, in reverse
input order, then the array-valued fields in input order.  The scalar fields
other than `name` keep their value and each array is replaced by its own
annotation. -/
theorem countArray_field_order (T : List Node) (i : Nat) (path : List (String × Nat))
    (n : Node) (hwf : wfTree T = true) (hpath : ∀ kj ∈ path, kj.1 ≠ "name")
    (hn : nodeAt T i path = some n) (hname : "name" ∈ scalarKeys n.fields) :
    (nodeAt (countArray T) i path).map (fun m => keysOf m.fields) =
      some ((scalarKeys n.fields).reverse ++ arrayKeys n.fields) ∧
    ((scalarKeys n.fields).reverse ++ arrayKeys n.fields).Perm (keysOf n.fields) ∧
    (∀ k v, (k, v) ∈ n.fields → v.isArray = false → k ≠ "name" →
      (nodeAt (countArray T) i path).map (fun m => getField m.fields k) = some v) ∧
    (∀ k items, (k, Value.array items) ∈ n.fields → k ≠ "name" →
      (nodeAt (countArray T) i path).map (fun m => getField m.fields k) =
        some (.array (countArray items))) := by
  have hnT : wfTree [n] = true := nodeAt_wf path T i n hwf hn
  have hkeys : distinctKeys n = true := wfTree_distinct hnT (List.mem_singleton.2 rfl)
  have hnd : (keysOf n.fields).Nodup := by simpa [distinctKeys] using hkeys
  rw [nodeAt_countArray path T i n hwf hpath hn]
  simp only [Option.map_some', keysOf_countItem n hkeys hname, true_and]
  refine ⟨keysOf_perm_partition _, ?_, ?_⟩
  · intro k v hmem hv hk
    obtain ⟨fs⟩ := n
    congr 1
    apply countKeys_scalar fs _ k v (isAcc_init _) hnd hmem hv hk
    simpa [keysOf] using hk
  · intro k items hmem hk
    obtain ⟨fs⟩ := n
    congr 1
    exact countKeys_array fs _ k items (isAcc_init _) hnd hmem hk

/-- The first person of `data.js` inside a region: `name` comes first in the
output, then `animals`. -/
theorem countArray_field_order_witness :
    (nodeAt (countArray [region]) 0 [("people", 0)]).map (fun m => keysOf m.fields) =
      some ["name", "animals"] :=
  (countArray_field_order [region] 0 [("people", 0)] winifred (by decide) (by decide) rfl
    (by decide)).1


/-! ## Claims on `processArray` and `preprocessArguments` -/

/-- C11: filter always precedes annotate.  For every tree, defined key and valid
args list with at least one `--filter=<p>` token and at least one `--count`
token, in any relative order, `processArray(T, args, K)` is `countArray` applied
to `filterArray(T, filters, K)`, the filters being the patterns in order of
appearance (an exception of the filter is propagated); the counts are those of
the filtered tree. -/
theorem processArray_filter_then_count (T : List Node) (K : String) (args : List String)
    (hvalid : ∀ t ∈ args, validToken t = true)
    (hfilter : ∃ t ∈ args, isFilterToken t = true)
    (hcount : "--count" ∈ args) :
    processArray T args (some K) =
      (filterArray T (patternsOf args) (some K)).map countArray := by
  have hpos : (patternsOf args).length > 0 := by
    apply List.length_pos.2
    intro h
    obtain ⟨t, ht, hf⟩ := hfilter
    rw [patternsOf_eq_nil.1 h t ht] at hf
    cases hf
  rw [processArray_of_valid hvalid, if_pos hpos]
  cases filterArray T (patternsOf args) (some K) with
  | error e => rfl
  | ok R => simp [hcount, Except.map]

/-- The example of the specification with `--count` given first: Ann keeps the
duck and her name shows one animal; the leaf is not suffixed. -/
theorem processArray_filter_then_count_witness :
    processArray [ann] ["--count", "--filter=Duck"] (some "animals") =
      .ok [.mk [("name", .str "Ann [1]"), ("animals", .array [.mk [("name", .str "Duck")]])]] :=
  processArray_filter_then_count [ann] "animals" ["--count", "--filter=Duck"]
    (by decide) (by decide) (by decide)


/-- C12: steps not requested are skipped.  For every tree and every target
field, `undefined` included, `processArray(T, [], K)` is `T`; and for every valid
args list without a filter token the filter is not applied: the result is `T`
when `--count` is absent and `countArray(T)` when it is present, without pruning
and without exception. -/
theorem processArray_skips (T : List Node) (K : Option String) (args : List String)
    (hvalid : ∀ t ∈ args, validToken t = true)
    (hnofilter : ∀ t ∈ args, isFilterToken t = false) :
    processArray T [] K = .ok T ∧
    processArray T args K = .ok (if "--count" ∈ args then countArray T else T) := by
  refine ⟨rfl, ?_⟩
  rw [processArray_of_valid hvalid, patternsOf_eq_nil.2 hnofilter]
  by_cases hc : "--count" ∈ args <;> simp [hc]

/-- A person without animals, counted with an undefined target field: the
person stays, with a count of zero. -/
theorem processArray_skips_witness :
    processArray [eve] ["--count"] none =
      .ok [.mk [("name", .str "Eve [0]"), ("animals", .array [])]] :=
  (processArray_skips [eve] none ["--count"] (by decide) (by decide)).2


/-- C13: no match anywhere yields the empty sequence.  For every well-formed
tree, defined key `K` and non-empty list `P` of non-empty patterns such that no
child of any array named `K` (each carrying a string name) has a name that
contains all patterns, `processArray(T, ['--filter=' + p for p in P], K)` returns
the empty sequence. -/
theorem processArray_no_match (T : List Node) (K : String) (P : List String)
    (hwf : wfTree T = true) (hnamed : namedTree K T = true)
    (hP : P ≠ []) (hne : ∀ p ∈ P, p ≠ "") (hno : noMatchTree P K T = true) :
    processArray T (P.map (fun p => "--filter=" ++ p)) (some K) = .ok [] := by
  have hvalid : ∀ t ∈ P.map (fun p => "--filter=" ++ p), validToken t = true := by
    intro t ht
    obtain ⟨p, hp, rfl⟩ := List.mem_map.1 ht
    simp [validToken, isFilterToken_append (hne p hp)]
  have hcount : "--count" ∉ P.map (fun p => "--filter=" ++ p) := by
    intro hmem
    obtain ⟨p, hp, he⟩ := List.mem_map.1 hmem
    have h1 := isFilterToken_append (hne p hp)
    rw [he] at h1
    revert h1
    decide
  rw [processArray_of_valid hvalid, patternsOf_map_append hne,
    if_pos (List.length_pos.2 hP), filterArray_no_match P K T hwf hnamed hno]
  simp [hcount]

/-- Two regions of the shape of `data.js` filtered by `Zzz`. -/
theorem processArray_no_match_witness :
    processArray [region, otherRegion] ["--filter=Zzz"] (some "animals") = .ok [] :=
  processArray_no_match [region, otherRegion] "animals" ["Zzz"] (by decide) (by decide)
    (by decide) (by decide) (by decide)


/-- C14: result of the argument normalizer.  For every args list in which every
token is exactly `--count` or starts with `--filter=` and is strictly longer,
`preprocessArguments` returns the descriptor whose filters are the remainders of
the filter tokens after the prefix (the prefix followed by the remainder is the
token), in order of appearance with duplicates kept, and whose count is true
exactly when `--count` occurs; and `preprocessArguments([])` is
`{filters: [], count: false}`. -/
theorem preprocessArguments_result (args : List String)
    (hvalid : ∀ t ∈ args, validToken t = true) :
    preprocessArguments args = .ok ⟨patternsOf args, decide ("--count" ∈ args)⟩ ∧
    (∀ t ∈ args, isFilterToken t = true → "--filter=" ++ patternOf t = t) ∧
    preprocessArguments [] = .ok ⟨[], false⟩ :=
  ⟨preprocessArguments_valid hvalid, fun _ _ h => filterToken_split h, rfl⟩

/-- The example of the specification. -/
theorem preprocessArguments_result_witness :
    preprocessArguments ["--filter=Duck", "--filter=Dog", "--count"] =
      .ok ⟨["Duck", "Dog"], true⟩ :=
  (preprocessArguments_result ["--filter=Duck", "--filter=Dog", "--count"] (by decide)).1


/-- C15: `preprocessArguments` fails if and only if args contains at least one
token that is neither exactly `--count` nor `--filter=` followed by at least one
character, and the exception names such a token; an args list that contains
`--filter=`, `--count ` with a blank, `--counts`, `-count` or the empty string
fails. -/
theorem preprocessArguments_fails_iff (args : List String) :
    ((∃ e, preprocessArguments args = .error e) ↔ ∃ t ∈ args, validToken t = false) ∧
    (∀ e, preprocessArguments args = .error e →
      ∃ t ∈ args, validToken t = false ∧ e = .forbidden t) ∧
    (∀ t ∈ ["--filter=", "--count ", "--counts", "-count", ""], t ∈ args →
      ∃ e, preprocessArguments args = .error e) := by
  have hfail : ∀ e, preprocessArguments args = .error e →
      ∃ t ∈ args, validToken t = false ∧ e = .forbidden t := by
    intro e he
    by_cases hall : ∀ t ∈ args, validToken t = true
    · rw [preprocessArguments_valid hall] at he
      cases he
    · simp only [not_forall, Bool.not_eq_true] at hall
      obtain ⟨t, ht, hv⟩ := hall
      obtain ⟨u, hu, hvu, hpu⟩ := preprocessArguments_invalid ⟨t, ht, hv⟩
      rw [hpu] at he
      cases he
      exact ⟨u, hu, hvu, rfl⟩
  have hbad : (∃ t ∈ args, validToken t = false) → ∃ e, preprocessArguments args = .error e := by
    intro h
    obtain ⟨u, _, _, hpu⟩ := preprocessArguments_invalid h
    exact ⟨_, hpu⟩
  refine ⟨⟨?_, hbad⟩, hfail, ?_⟩
  · rintro ⟨e, he⟩
    obtain ⟨t, ht, hv, _⟩ := hfail e he
    exact ⟨t, ht, hv⟩
  · intro t ht hmem
    have hv : ∀ u ∈ ["--filter=", "--count ", "--counts", "-count", ""],
        validToken u = false := by decide
    exact hbad ⟨t, hmem, hv t ht⟩


/-- C16: argument errors abort the whole call.  If any token of args is not
recognized, `processArray` fails with the exception that `preprocessArguments`
raises, which names an unrecognized token, for every tree and every target
field, `undefined` included, whatever the other tokens. -/
theorem processArray_argument_error (T : List Node) (args : List String) (K : Option String)
    (hbad : ∃ t ∈ args, validToken t = false) :
    ∃ t ∈ args, validToken t = false ∧
      preprocessArguments args = .error (.forbidden t) ∧
      processArray T args K = .error (.forbidden t) := by
  obtain ⟨t, ht, hv, hp⟩ := preprocessArguments_invalid hbad
  exact ⟨t, ht, hv, hp, by simp only [processArray, hp]⟩

/-- A valid filter followed by an unknown flag, with an undefined target field:
the argument error is raised, not the missing key. -/
theorem processArray_argument_error_witness :
    ∃ t ∈ ["--filter=Duck", "--bogus"], validToken t = false ∧
      preprocessArguments ["--filter=Duck", "--bogus"] = .error (.forbidden t) ∧
      processArray [ann] ["--filter=Duck", "--bogus"] none = .error (.forbidden t) :=
  processArray_argument_error [ann] ["--filter=Duck", "--bogus"] none
    ⟨"--bogus", by decide, by decide⟩


/-- C17: `filterArray` fails with the missing key exception whenever the target
key is `undefined`, for every array and every pattern list, the empty ones
included, and never raises it when the key is a string; `processArray` raises it
exactly when args is valid, contains at least one filter token, and the target
field is `undefined`. -/
theorem filterArray_missing_key (T : List Node) (P : List String) (args : List String)
    (K : Option String) :
    filterArray T P none = .error .noFilteringKey ∧
    filterArray [] [] none = .error .noFilteringKey ∧
    (∀ k : String, filterArray T P (some k) ≠ .error .noFilteringKey) ∧
    (processArray T args K = .error .noFilteringKey ↔
      (∀ t ∈ args, validToken t = true) ∧ (∃ t ∈ args, isFilterToken t = true) ∧
        K = none) := by
  refine ⟨rfl, rfl, ?_, ?_, ?_⟩
  · intro k h
    cases filterArray_error h
  · intro h
    by_cases hall : ∀ t ∈ args, validToken t = true
    · rw [processArray_of_valid hall] at h
      by_cases hpos : (patternsOf args).length > 0
      · rw [if_pos hpos] at h
        refine ⟨hall, ?_, ?_⟩
        · by_contra hno
          simp only [not_exists, not_and, Bool.not_eq_true] at hno
          rw [patternsOf_eq_nil.2 hno] at hpos
          simp at hpos
        · cases K with
          | none => rfl
          | some k =>
            cases hf : filterArray T (patternsOf args) (some k) with
            | error e =>
              rw [hf] at h
              cases filterArray_error hf
              cases h
            | ok R =>
              rw [hf] at h
              cases h
      · rw [if_neg hpos] at h
        cases h
    · simp only [not_forall, Bool.not_eq_true] at hall
      obtain ⟨t, ht, hv⟩ := hall
      obtain ⟨u, _, _, hpu⟩ := preprocessArguments_invalid ⟨t, ht, hv⟩
      simp only [processArray, hpu] at h
      cases h
  · rintro ⟨hall, ⟨t, ht, hf⟩, rfl⟩
    have hpos : (patternsOf args).length > 0 := by
      apply List.length_pos.2
      intro h
      rw [patternsOf_eq_nil.1 h t ht] at hf
      cases hf
    rw [processArray_of_valid hall, if_pos hpos]
    rfl


/-- C18, as stated, fails: with the empty string as target field the filter
runs and returns (here nothing, no field being named by the empty string). -/
theorem filterArray_empty_key_counterexample :
    filterArray [ann] ["Duck"] (some "") = .ok [] ∧
    filterArray [ann] ["Duck"] (some "") ≠ .error .noFilteringKey :=
  ⟨rfl, fun h => by cases filterArray_error h⟩

/-- C18, amended: `filterArray` fails with the missing key exception when the
target field is `undefined`, for every tree and every pattern list; when it is
the empty string it does not raise it: the empty string is a field name like any
other, and the call returns on every well-formed tree whose children under that
name carry string names. -/
theorem filterArray_empty_key (T : List Node) (P : List String) :
    filterArray T P none = .error .noFilteringKey ∧
    filterArray T P (some "") ≠ .error .noFilteringKey ∧
    (wfTree T = true → namedTree "" T = true → ∃ R, filterArray T P (some "") = .ok R) := by
  refine ⟨rfl, ?_, filterArray_returns P "" T⟩
  intro h
  cases filterArray_error h


/-- C19, at the first person of `data.js` with `--count`: `processArray` of
functions_readable.js returns the name without the count, `processArray` of
functions.js the name with it. -/
theorem processArrayReadable_differs :
    (processArrayReadable [winifred] ["--count"] (some "animals")).map
        (List.map (fun m => getField m.fields "name")) = .ok [.str "Winifred Graham"] ∧
    (processArray [winifred] ["--count"] (some "animals")).map
        (List.map (fun m => getField m.fields "name")) = .ok [.str "Winifred Graham [6]"] :=
  ⟨rfl, rfl⟩


/-- C20: pattern order is irrelevant.  For every tree, defined key and pattern
lists `P` and `P'` that contain the same patterns, `filterArray(T, P, K)` and
`filterArray(T, P', K)` are equal, exceptions included; in particular for a
permutation of `P`; hence two valid args lists whose filter tokens carry `P`
and `P'` and that agree on the presence of `--count` give the same result of
`processArray`. -/
theorem filterArray_pattern_order (T : List Node) (K : String) (P P' : List String)
    (hsub : ∀ p ∈ P, p ∈ P') (hsub' : ∀ p ∈ P', p ∈ P) :
    filterArray T P (some K) = filterArray T P' (some K) ∧
    (∀ Q, P.Perm Q → filterArray T P (some K) = filterArray T Q (some K)) ∧
    (∀ (args args' : List String) (key : Option String),
      (∀ t ∈ args, validToken t = true) → (∀ t ∈ args', validToken t = true) →
      patternsOf args = P → patternsOf args' = P' →
      ("--count" ∈ args ↔ "--count" ∈ args') →
      processArray T args key = processArray T args' key) := by
  refine ⟨filterArray_same_set hsub hsub' T _, ?_, ?_⟩
  · intro Q hQ
    exact filterArray_same_set (fun p hp => hQ.mem_iff.1 hp) (fun p hp => hQ.mem_iff.2 hp) T _
  · intro args args' key hv hv' hP hP' hc
    have hlen : (P.length > 0) ↔ (P'.length > 0) := by
      simp only [gt_iff_lt, List.length_pos]
      constructor
      · intro h e
        subst e
        cases P with
        | nil => exact h rfl
        | cons p _ => exact absurd (hsub p (List.mem_cons_self _ _)) (List.not_mem_nil _)
      · intro h e
        subst e
        cases P' with
        | nil => exact h rfl
        | cons p _ => exact absurd (hsub' p (List.mem_cons_self _ _)) (List.not_mem_nil _)
    have hdec : decide ("--count" ∈ args) = decide ("--count" ∈ args') := by
      rw [Bool.eq_iff_iff]
      simpa using hc
    rw [processArray_of_valid hv, processArray_of_valid hv', hP, hP', hdec,
      filterArray_same_set hsub hsub' T key]
    by_cases h : P.length > 0
    · rw [if_pos h, if_pos (hlen.1 h)]
    · rw [if_neg h, if_neg (fun h' => h (hlen.2 h'))]

/-- Ann filtered by `D` and `k`, in another order and with a repetition. -/
theorem filterArray_pattern_order_witness :
    filterArray [ann] ["D", "k"] (some "animals") =
      filterArray [ann] ["k", "D", "k"] (some "animals") :=
  (filterArray_pattern_order [ann] "animals" ["D", "k"] ["k", "D", "k"]
    (by decide) (by decide)).1


/-- C21: the argument error identifies the offending token.  When the tokens
before `t` are all recognized and `t` is not, `preprocessArguments` raises
`Argument t is forbidden`, whatever the tokens after `t`; and every failure of
`preprocessArguments` is of this form, the token named being the leftmost
unrecognized one. -/
theorem preprocessArguments_first_invalid (pre post : List String) (t : String)
    (hpre : ∀ u ∈ pre, validToken u = true) (ht : validToken t = false) :
    preprocessArguments (pre ++ t :: post) = .error (.forbidden t) ∧
    (∀ args e, preprocessArguments args = .error e →
      ∃ pre' t' post', args = pre' ++ t' :: post' ∧ (∀ u ∈ pre', validToken u = true) ∧
        validToken t' = false ∧ e = .forbidden t') :=
  ⟨preprocessArguments_first hpre ht, fun _ _ h => preprocessArguments_error_split h⟩

/-- Two unknown flags after a valid filter: the first of them is reported. -/
theorem preprocessArguments_first_invalid_witness :
    preprocessArguments ["--filter=Duck", "--bogus", "--count", "--other"] =
      .error (.forbidden "--bogus") :=
  (preprocessArguments_first_invalid ["--filter=Duck"] ["--count", "--other"] "--bogus"
    (by decide) (by decide)).1


/-- C22, as stated, fails: on a Node whose name is an array that holds a Node
with a field `toString`, a well-formed tree that satisfies the name condition,
the template literal of `countArray` throws a `TypeError`, and so does
`processArray` with `--count`. -/
theorem processArray_returns_counterexample :
    wfTree [unprintable] = true ∧ namedTree "animals" [unprintable] = true ∧
    (∀ t ∈ ["--count"], validToken t = true) ∧
    processArrayE [unprintable] ["--count"] (some "animals") = .error .typeError ∧
    countArrayE [unprintable] = .error .typeError :=
  ⟨by decide, by decide, by decide, rfl, rfl⟩

/-- C22, amended: for every well-formed tree in which every child of an array
named `K` carries a string name and no Node has for name an array that holds a
Node with a field `toString`, every valid args list and every defined target
field `K`, `processArray` returns a tree, the one of the pipeline of values.
`countArray` on its own returns exactly on the trees that satisfy the second
condition, with or without name fields, and throws a `TypeError` on the others.
The string names are needed only for a filter with a pattern: without filter
token `processArray` returns whatever the target field, `filterArray` without
pattern returns on every well-formed tree, and a child without name makes a
filter with a pattern throw. -/
theorem processArrayE_no_other_failure (T : List Node) (K : String) (args : List String)
    (hwf : wfTree T = true) (hnamed : namedTree K T = true)
    (hsafe : templateSafe T = true) (hvalid : ∀ t ∈ args, validToken t = true) :
    (∃ R, processArrayE T args (some K) = .ok R ∧ processArray T args (some K) = .ok R) ∧
    (∀ T' : List Node, countArrayE T' =
      if templateSafe T' = true then .ok (countArray T') else .error .typeError) ∧
    (∀ (T' : List Node) (key : Option String) (args' : List String),
      templateSafe T' = true → (∀ t ∈ args', validToken t = true) →
      (∀ t ∈ args', isFilterToken t = false) →
      ∃ R, processArrayE T' args' key = .ok R) ∧
    (∀ T', wfTree T' = true → ∃ R, filterArray T' [] (some K) = .ok R) ∧
    processArrayE [nameless] ["--filter=a"] (some "animals") = .error .typeError := by
  refine ⟨?_, countArrayE_eq, ?_, filterArray_nil_returns K, rfl⟩
  · obtain ⟨R, hR⟩ := processArrayE_returns hwf hnamed hsafe hvalid
    exact ⟨R, hR, processArray_of_processArrayE hR⟩
  · intro T' key args' hs hv hno
    exact processArrayE_returns_no_filter hs hv hno

/-- Two regions of the shape of `data.js`, filtered and counted. -/
theorem processArrayE_no_other_failure_witness :
    ∃ R, processArrayE [region, otherRegion] ["--filter=Cat", "--count"] (some "animals") =
        .ok R ∧
      processArray [region, otherRegion] ["--filter=Cat", "--count"] (some "animals") =
        .ok R :=
  (processArrayE_no_other_failure [region, otherRegion] "animals" ["--filter=Cat", "--count"]
    (by decide) (by decide) (by decide) (by decide)).1


/-- C23: filtering composes over concatenation of pattern lists.  For every
well-formed tree whose children of arrays named `K` carry string names, every
defined key `K` and pattern lists `P` and `Q`, filtering by `P` and then the
result by `Q` gives what filtering by `P ++ Q` gives, which is a tree, pruning
included; so `processArray` with the tokens `--filter=a --filter=b` gives the
tree obtained with `--filter=a` and then `--filter=b` on the result. -/
theorem filterArray_compose (T : List Node) (K : String) (P Q : List String)
    (hwf : wfTree T = true) (hnamed : namedTree K T = true) :
    (filterArray T P (some K)).bind (fun R => filterArray R Q (some K)) =
      filterArray T (P ++ Q) (some K) ∧
    (∃ S, filterArray T (P ++ Q) (some K) = .ok S) ∧
    (∀ a b : String, a ≠ "" → b ≠ "" →
      processArray T ["--filter=" ++ a, "--filter=" ++ b] (some K) =
        (processArray T ["--filter=" ++ a] (some K)).bind
          (fun R => processArray R ["--filter=" ++ b] (some K))) := by
  have hmain : ∀ P Q : List String,
      (filterArray T P (some K)).bind (fun R => filterArray R Q (some K)) =
        filterArray T (P ++ Q) (some K) ∧
      ∃ S, filterArray T (P ++ Q) (some K) = .ok S := by
    intro P Q
    obtain ⟨R, hR⟩ := filterArray_returns P K T hwf hnamed
    obtain ⟨S, hS1, hS2⟩ := filterArray_compose_aux P Q K T hwf hnamed R hR
    refine ⟨?_, S, hS1⟩
    rw [hR, hS1]
    exact hS2
  refine ⟨(hmain P Q).1, (hmain P Q).2, ?_⟩
  intro a b ha hb
  have h2 := processArray_filters (T := T) (K := K) (P := [a, b]) (by simp)
    (by
      intro p hp
      rcases List.mem_cons.1 hp with h | h
      · exact h ▸ ha
      · exact (List.mem_singleton.1 h) ▸ hb)
  have h1 := processArray_filters (T := T) (K := K) (P := [a]) (by simp)
    (fun p hp => (List.mem_singleton.1 hp) ▸ ha)
  simp only [List.map_cons, List.map_nil] at h1 h2
  have hm : (filterArray T [a] (some K)).bind (fun R => filterArray R [b] (some K)) =
      filterArray T [a, b] (some K) := (hmain [a] [b]).1
  rw [h2, h1, ← hm]
  cases filterArray T [a] (some K) with
  | error e => rfl
  | ok R =>
    have h3 := processArray_filters (T := R) (K := K) (P := [b]) (by simp)
      (fun p hp => (List.mem_singleton.1 hp) ▸ hb)
    simp only [List.map_cons, List.map_nil] at h3
    simp only [Except.bind, h3]

/-- Two regions filtered by `C` and then by `t`, and by both at once. -/
theorem filterArray_compose_witness :
    (filterArray [region, otherRegion] ["C"] (some "animals")).bind
        (fun R => filterArray R ["t"] (some "animals")) =
      filterArray [region, otherRegion] ["C", "t"] (some "animals") :=
  (filterArray_compose [region, otherRegion] "animals" ["C"] ["t"] (by decide) (by decide)).1

end Cdp
